import Mathlib

/-!
# bgt-blockchain: block assembly and commit (`src/blockchain.cpp`)

A shallow embedding of `Blockchain::addTransactionToNewBlock`,
`Blockchain::generateTransactions`, `Blockchain::mineBlock` and
`Blockchain::removeTransactions`.

Conventions of the embedding.

* `std::vector` is `List`; an iterator is an index, `erase(it)` is `List.eraseIdx`
  and `find_if` followed by `erase` is `List.eraseP`.
* Public keys, transaction ids and hashes are strings in the program; only their
  equality is ever used, so they are natural numbers here.
* Balances and amounts are unbounded integers (`Int`).
* Dereferencing or erasing a past-the-end iterator is undefined behaviour in C++;
  the embedding stops with `Res.undefinedBehaviour`.
* Loops carry fuel; running out of it is `Res.outOfFuel`, kept apart from
  undefined behaviour.
* Random draws are read from a stream `Nat → Nat`, so that a statement quantified
  over the stream holds for every outcome of the generator.
* An attempt runs without interleaving, except that another worker may set the shared
  flag `finishedMining` while the attempt is inside `block.mine`.
-/

namespace BgtBlockchain

/-! ## Data model -/

/-- Result of running a piece of the program. -/
inductive Res (α : Type) where
  | ok (a : α)
  | undefinedBehaviour
  | outOfFuel
  deriving DecidableEq

/-- A `User` of `blockchain.hpp`: display name, public key and balance. -/
structure User where
  name : String
  publicKey : Nat
  balance : Int
  deriving DecidableEq

/-- A `Transaction`: `getId()`, `getSender()`, the recipient public key passed to the
constructor as `address`, and `getAmount()`. -/
structure Transaction where
  id : Nat
  sender : Nat
  address : Nat
  amount : Int
  deriving DecidableEq

/-- A `Block` as built by `Block(prevHash, difficultyTarget, version, transactions)`,
with the nonce and hash that `Block::mine` leaves in it. -/
structure Block where
  prevHash : Nat
  difficultyTarget : Nat
  version : Nat
  transactions : List Transaction
  nonce : Nat
  hash : Nat
  deriving DecidableEq

/-- The members of `class Blockchain` that `blockchain.cpp` reads and writes. -/
structure Blockchain where
  users : List User
  pool : List Transaction
  blockchain : List Block
  deriving DecidableEq

/-- The constants of `defines.hpp` used by `mineBlock`. -/
structure Defines where
  TRANSACTIONS_IN_BLOCK : Nat
  DIFFICULTY_TARGET : Nat
  deriving DecidableEq

/-! ## Ledger helpers (declared in `blockchain.hpp`, defined outside `src/`) -/

/-- Modelled from the spec: `findUserByPk` is missing from `src/`; §4.1 `findByIdentity(pk)`
is a lookup by public key that fails when the key is absent. `none` is the end iterator. -/
def findUserByPk (us : List User) (pk : Nat) : Option User :=
  us.find? (fun u => u.publicKey == pk)

/-- Modelled from the spec: `findUserByUsername` is missing from `src/`; §4.1 `findByName(name)`
is a lookup by display name that fails when the name is absent. -/
def findUserByUsername (us : List User) (name : String) : Option User :=
  us.find? (fun u => u.name == name)

/-- The effect of `it->setBalance(b)` on the iterator returned by `findUserByPk us pk`:
the first user with that key gets balance `b`. -/
def setBalance (pk : Nat) (b : Int) : List User → List User
  | [] => []
  | u :: us =>
    if u.publicKey = pk then { u with balance := b } :: us
    else u :: setBalance pk b us

/-- Modelled from the spec: `updateUserBalance` is missing from `src/`; §4.1
`applyTransaction(tx)` deducts `amount` from the sender balance and credits the recipient
balance, with no validation. Both users are looked up by public key; a failed lookup is a
dereferenced end iterator. -/
def updateUserBalance (us : List User) (t : Transaction) : Res (List User) :=
  match findUserByPk us t.sender with
  | none => .undefinedBehaviour
  | some s =>
    let us1 := setBalance t.sender (s.balance - t.amount) us
    match findUserByPk us1 t.address with
    | none => .undefinedBehaviour
    | some r => .ok (setBalance t.address (r.balance + t.amount) us1)

/-- The loop `for (const auto& t : block.getTransactions()) updateUserBalance(users, t);`. -/
def applyTransactions : List User → List Transaction → Res (List User)
  | us, [] => .ok us
  | us, t :: ts =>
    match updateUserBalance us t with
    | .ok us1 => applyTransactions us1 ts
    | .undefinedBehaviour => .undefinedBehaviour
    | .outOfFuel => .outOfFuel

/-! ## Candidate selection -/

/-- Modelled from the spec: `selectRandomTransaction` is missing from `src/`; §4.2
`selectRandom()` picks one position of a non-empty pool, uniformly over the current pool
size. The position chosen for the raw draw `d` is `d % poo.length`, which ranges over
every position as `d` varies. -/
def selectRandomTransaction (poo : List Transaction) (d : Nat) : Nat :=
  d % poo.length

/-- The four vectors that `addTransactionToNewBlock` takes by reference, and the number of
random draws consumed so far. -/
structure Selection where
  us : List User
  poo : List Transaction
  invalid : List Transaction
  candidates : List Transaction
  drawn : Nat
  deriving DecidableEq

/-- The `do { ... } while (true)` loop of `addTransactionToNewBlock`; one unit of fuel per
iteration. -/
def addTransactionToNewBlockLoop (draws : Nat → Nat) : Nat → Selection → Res Selection
  | 0, _ => .outOfFuel
  | fuel + 1, st =>
    if st.poo.isEmpty then .ok st
    else
      let i := selectRandomTransaction st.poo (draws st.drawn)
      match st.poo[i]? with
      | none => .undefinedBehaviour
      | some t =>
        match findUserByPk st.us t.sender with
        | none => .undefinedBehaviour
        | some sender =>
          if sender.balance < t.amount then
            addTransactionToNewBlockLoop draws fuel
              { st with invalid := st.invalid ++ [t], poo := st.poo.eraseIdx i,
                        drawn := st.drawn + 1 }
          else
            match updateUserBalance st.us t with
            | .ok us1 =>
              .ok { us := us1, poo := st.poo.eraseIdx i, invalid := st.invalid,
                    candidates := st.candidates ++ [t], drawn := st.drawn + 1 }
            | .undefinedBehaviour => .undefinedBehaviour
            | .outOfFuel => .outOfFuel

/-- The member function `Blockchain::addTransactionToNewBlock(us, poo, invalid, candidates)`.
Every iteration
that does not return erases one element of `poo`, hence the fuel. -/
def addTransactionToNewBlock (draws : Nat → Nat) (st : Selection) : Res Selection :=
  addTransactionToNewBlockLoop draws (st.poo.length + 1) st

/-- The loop of `mineBlock`
`while (!tempPool.empty() && candidates.size() < TRANSACTIONS_IN_BLOCK)
   addTransactionToNewBlock(tempUsers, tempPool, invalidTxs, candidates);`
with one unit of fuel per iteration. -/
def selectionLoop (cap : Nat) (draws : Nat → Nat) : Nat → Selection → Res Selection
  | 0, st =>
    if !st.poo.isEmpty && decide (st.candidates.length < cap) then .outOfFuel else .ok st
  | fuel + 1, st =>
    if !st.poo.isEmpty && decide (st.candidates.length < cap) then
      match addTransactionToNewBlock draws st with
      | .ok st1 => selectionLoop cap draws fuel st1
      | .undefinedBehaviour => .undefinedBehaviour
      | .outOfFuel => .outOfFuel
    else .ok st

/-- Lines 89-111 of `mineBlock`: the private copies and the selection loop run on them. -/
def selectTransactions (cap : Nat) (draws : Nat → Nat) (users : List User)
    (pool : List Transaction) : Res Selection :=
  selectionLoop cap draws pool.length
    { us := users, poo := pool, invalid := [], candidates := [], drawn := 0 }

/-! ## Pool pruning -/

/-- The member function `Blockchain::removeTransactions(txs, msg)` on the pool `pool`
(`msg` is only printed). For each `t` of `txs`, `std::find_if` looks for the first pool
element with the id of `t` and `pool.erase(it)` erases it; when there is none, `it` is
`pool.end()` and erasing it is undefined behaviour. -/
def removeTransactions : List Transaction → List Transaction → Res (List Transaction)
  | pool, [] => .ok pool
  | pool, t :: txs =>
    if pool.any (fun tr => tr.id == t.id) then
      removeTransactions (pool.eraseP (fun tr => tr.id == t.id)) txs
    else .undefinedBehaviour

/-! ## One mining attempt -/

/-- Modelled from the spec: `getLastBlockHash` is missing from `src/`; §6 calls it the chain
tip accessor. The hash of the last block, and `0` for an empty chain. -/
def getLastBlockHash (chain : List Block) : Nat :=
  match chain.getLast? with
  | some b => b.hash
  | none => 0

/-- What one attempt gets from outside `blockchain.cpp`: the random draws of
`selectRandomTransaction`, the nonce and hash left in the block by `Block::mine`, whether
another worker set the shared flag `finishedMining` while this attempt was inside
`block.mine`, and the result of `checkBlockHash(block)`. -/
structure Search where
  draws : Nat → Nat
  nonce : Nat
  hash : Nat
  raisedDuringSearch : Bool
  hashOk : Bool

/-- The place where `mineBlock` returns. -/
inductive Exit where
  | noUsers
  | emptyPool
  | noCandidates
  | cancelled
  | tampered
  | lostRace
  | committed
  deriving DecidableEq

/-- The shared state and the flag `finishedMining` as they are when an attempt returns,
where it returned, and the candidates and invalid transactions it had selected. -/
structure Attempt where
  chain : Blockchain
  finishedMining : Bool
  exit : Exit
  candidates : List Transaction
  invalidTxs : List Transaction
  deriving DecidableEq

/-- The critical section of lines 146-170: the height check and, when it passes, setting
the flag, appending the block, replaying its transactions on `users` and pruning `pool`. -/
def commitSection (s : Blockchain) (finishedMining : Bool) (initialBlockchainSize : Nat)
    (block : Block) (invalidTxs : List Transaction) : Res (Blockchain × Bool × Exit) :=
  if s.blockchain.length = initialBlockchainSize then
    match applyTransactions s.users block.transactions with
    | .ok users1 =>
      match removeTransactions s.pool block.transactions with
      | .ok pool1 =>
        match (if invalidTxs.isEmpty then Res.ok pool1
               else removeTransactions pool1 invalidTxs) with
        | .ok pool2 =>
          .ok ({ users := users1, pool := pool2, blockchain := s.blockchain ++ [block] },
               true, Exit.committed)
        | .undefinedBehaviour => .undefinedBehaviour
        | .outOfFuel => .outOfFuel
      | .undefinedBehaviour => .undefinedBehaviour
      | .outOfFuel => .outOfFuel
    | .undefinedBehaviour => .undefinedBehaviour
    | .outOfFuel => .outOfFuel
  else .ok (s, finishedMining, Exit.lostRace)

/-- Lines 128-132 of `mineBlock`: `Block block(getLastBlockHash(), DIFFICULTY_TARGET, 1,
candidates)` after `block.mine(finishedMining)` has left its nonce and hash in it. -/
def minedBlock (d : Defines) (chain : List Block) (candidates : List Transaction)
    (o : Search) : Block :=
  { prevHash := getLastBlockHash chain, difficultyTarget := d.DIFFICULTY_TARGET,
    version := 1, transactions := candidates, nonce := o.nonce, hash := o.hash }

/-- The value of `finishedMining` that line 135 reads after `block.mine(finishedMining)`.
The flag is a reference shared by the workers and the program only ever sets it (line
149); `Block::mine` polls it (spec §6). So it is set after the search when it was set on
entry or another worker set it during the search. -/
def flagAfterSearch (finishedMining : Bool) (o : Search) : Bool :=
  finishedMining || o.raisedDuringSearch

/-- Lines 128-170 of `mineBlock`, after selection: build the block, mine it, return if the
flag is set, check the hash, and enter the commit section. -/
def mineAndCommit (d : Defines) (s : Blockchain) (initialBlockchainSize : Nat)
    (finishedMining : Bool) (o : Search) (sel : Selection) : Res Attempt :=
  let block : Block := minedBlock d s.blockchain sel.candidates o
  if flagAfterSearch finishedMining o then
    .ok { chain := s, finishedMining := flagAfterSearch finishedMining o, exit := .cancelled,
          candidates := sel.candidates, invalidTxs := sel.invalid }
  else if !o.hashOk then
    .ok { chain := s, finishedMining := flagAfterSearch finishedMining o, exit := .tampered,
          candidates := sel.candidates, invalidTxs := sel.invalid }
  else
    match commitSection s (flagAfterSearch finishedMining o) initialBlockchainSize block
        sel.invalid with
    | .ok (s1, flag, e) =>
      .ok { chain := s1, finishedMining := flag, exit := e,
            candidates := sel.candidates, invalidTxs := sel.invalid }
    | .undefinedBehaviour => .undefinedBehaviour
    | .outOfFuel => .outOfFuel

/-- The member function `Blockchain::mineBlock(initialBlockchainSize, finishedMining)`,
executed from the shared state `s` without interleaving with another worker, except that
another worker may set the flag during the search. The flag in the result is the value of
`finishedMining` when the attempt returns. -/
def mineBlock (d : Defines) (s : Blockchain) (initialBlockchainSize : Nat)
    (finishedMining : Bool) (o : Search) : Res Attempt :=
  if s.users.isEmpty then
    .ok { chain := s, finishedMining := finishedMining, exit := .noUsers,
          candidates := [], invalidTxs := [] }
  else if s.pool.isEmpty then
    .ok { chain := s, finishedMining := finishedMining, exit := .emptyPool,
          candidates := [], invalidTxs := [] }
  else
    match selectTransactions d.TRANSACTIONS_IN_BLOCK o.draws s.users s.pool with
    | .ok sel =>
      let s1 : Blockchain := if sel.candidates.isEmpty then { s with pool := [] } else s
      if sel.candidates.isEmpty && s1.pool.isEmpty then
        .ok { chain := s1, finishedMining := finishedMining, exit := .noCandidates,
              candidates := sel.candidates, invalidTxs := sel.invalid }
      else mineAndCommit d s1 initialBlockchainSize finishedMining o sel
    | .undefinedBehaviour => .undefinedBehaviour
    | .outOfFuel => .outOfFuel

/-! ## Transaction generation -/

/-- Modelled from the spec: `generateRandomNumber` is missing from `src/`; §4.5 has every
number chosen uniformly in the inclusive range. For the raw draw `d` the number is
`lo + d % (hi - lo + 1)`; an empty range has no outcome. -/
def generateRandomNumber (lo hi : Int) (d : Nat) : Option Int :=
  if lo ≤ hi then some (lo + ((d % (hi - lo + 1).toNat : Nat) : Int)) else none

/-- What `generateTransactions` gets from outside `blockchain.cpp`: the raw draws of the
generator and the id that the `Transaction` constructor gives to the `i`-th transaction it
builds. -/
structure Generator where
  rand : Nat → Nat
  newId : Nat → Nat

/-- The loop `do { num2 = generateRandomNumber(0, users.size() - 1); } while (num2 == num1);`
reading draws from position `k`; returns `num2` and the next position. -/
def drawOther (rand : Nat → Nat) (n : Nat) (num1 : Int) : Nat → Nat → Res (Int × Nat)
  | 0, _ => .outOfFuel
  | fuel + 1, k =>
    match generateRandomNumber 0 ((n : Int) - 1) (rand k) with
    | none => .undefinedBehaviour
    | some num2 => if num2 = num1 then drawOther rand n num1 fuel (k + 1) else .ok (num2, k + 1)

/-- The body of the `for` loop of `generateTransactions`, run `count` times; `i` counts the
transactions built so far and `k` the draws consumed. -/
def generateLoop (g : Generator) (users : List User) (lo hi : Int) (fuel : Nat) :
    Nat → Nat → Nat → List Transaction → Res (List Transaction)
  | 0, _, _, pool => .ok pool
  | count + 1, i, k, pool =>
    match generateRandomNumber 0 ((users.length : Int) - 1) (g.rand k) with
    | none => .undefinedBehaviour
    | some num1 =>
      match findUserByUsername users ("user" ++ toString num1) with
      | none => .undefinedBehaviour
      | some sender =>
        match drawOther g.rand users.length num1 fuel (k + 1) with
        | .ok (num2, k1) =>
          match findUserByUsername users ("user" ++ toString num2) with
          | none => .undefinedBehaviour
          | some address =>
            match generateRandomNumber lo hi (g.rand k1) with
            | none => .undefinedBehaviour
            | some transactionAmount =>
              generateLoop g users lo hi fuel count (i + 1) (k1 + 1)
                (pool ++ [{ id := g.newId i, sender := sender.publicKey,
                            address := address.publicKey, amount := transactionAmount }])
        | .undefinedBehaviour => .undefinedBehaviour
        | .outOfFuel => .outOfFuel

/-- The member function `Blockchain::generateTransactions(count, min, max)`; `fuel` bounds
the number of draws of each `do ... while (num2 == num1)` loop. -/
def generateTransactions (s : Blockchain) (count lo hi : Int) (g : Generator) (fuel : Nat) :
    Res Blockchain :=
  if s.users.length < 2 then .ok s
  else
    match generateLoop g s.users lo hi fuel count.toNat 0 0 s.pool with
    | .ok pool1 => .ok { s with pool := pool1 }
    | .undefinedBehaviour => .undefinedBehaviour
    | .outOfFuel => .outOfFuel

/-! ## Runs of the two public operations -/

/-- One call made by the driver. -/
inductive Call where
  | generate (count lo hi : Int) (g : Generator) (fuel : Nat)
  | mine (initialBlockchainSize : Nat) (finishedMining : Bool) (o : Search)

/-- Executes the calls one after the other, each to completion. -/
def runCalls (d : Defines) : Blockchain → List Call → Res Blockchain
  | s, [] => .ok s
  | s, Call.generate count lo hi g fuel :: cs =>
    match generateTransactions s count lo hi g fuel with
    | .ok s1 => runCalls d s1 cs
    | .undefinedBehaviour => .undefinedBehaviour
    | .outOfFuel => .outOfFuel
  | s, Call.mine h flag o :: cs =>
    match mineBlock d s h flag o with
    | .ok a => runCalls d a.chain cs
    | .undefinedBehaviour => .undefinedBehaviour
    | .outOfFuel => .outOfFuel

/-! ## Commit steps racing at one height -/

/-- What one worker brings to the commit section: the height it recorded when it
started, its mined block and its invalid transactions. -/
structure CommitStep where
  initialBlockchainSize : Nat
  block : Block
  invalidTxs : List Transaction
  deriving DecidableEq

/-- Runs the commit sections of several workers one after the other, each as one atomic
step, and records how each of them ended. -/
def runCommitSteps : Blockchain → Bool → List CommitStep → Res (Blockchain × Bool × List Exit)
  | s, flag, [] => .ok (s, flag, [])
  | s, flag, c :: cs =>
    match commitSection s flag c.initialBlockchainSize c.block c.invalidTxs with
    | .ok (s1, f1, e) =>
      match runCommitSteps s1 f1 cs with
      | .ok (s2, f2, es) => .ok (s2, f2, e :: es)
      | .undefinedBehaviour => .undefinedBehaviour
      | .outOfFuel => .outOfFuel
    | .undefinedBehaviour => .undefinedBehaviour
    | .outOfFuel => .outOfFuel

/-! ## Predicates used in the statements -/

/-- The state after an iteration of `addTransactionToNewBlock` that rejects `t`, drawn at
position `i`. -/
def Selection.reject (st : Selection) (i : Nat) (t : Transaction) : Selection :=
  { st with invalid := st.invalid ++ [t], poo := st.poo.eraseIdx i, drawn := st.drawn + 1 }

/-- The state after an iteration of `addTransactionToNewBlock` that accepts `t`, drawn at
position `i`. -/
def Selection.accept (st : Selection) (i : Nat) (t : Transaction) (us1 : List User) :
    Selection :=
  { us := us1, poo := st.poo.eraseIdx i, invalid := st.invalid,
    candidates := st.candidates ++ [t], drawn := st.drawn + 1 }

/-- The selection state `st` is consistent with the snapshot `(us0, pool0)` it started
from: the three private vectors partition the pool snapshot, and the private ledger is
the ledger snapshot with the candidates applied in order. -/
def Selection.Tracks (us0 : List User) (pool0 : List Transaction) (st : Selection) : Prop :=
  (st.candidates ++ st.invalid ++ st.poo).Perm pool0 ∧
    applyTransactions us0 st.candidates = .ok st.us

/-- The ids of the transactions of the blocks of a chain, in chain order. -/
def chainIds : List Block → List Nat
  | [] => []
  | b :: bs => b.transactions.map Transaction.id ++ chainIds bs

/-- The pool ids are pairwise distinct, no id occurs twice across the blocks of the
chain, and no pool id occurs in a block. -/
def UniqueIds (s : Blockchain) : Prop :=
  (s.pool.map Transaction.id).Nodup ∧ (chainIds s.blockchain).Nodup ∧
    ∀ i ∈ s.pool.map Transaction.id, i ∉ chainIds s.blockchain

/-- Balances are non-negative, no pool transaction has a negative amount, and the sender
and the recipient of every pool transaction are in the ledger. -/
def Blockchain.Sound (s : Blockchain) : Prop :=
  (∀ u ∈ s.users, 0 ≤ u.balance) ∧
    ∀ t ∈ s.pool, 0 ≤ t.amount ∧ (findUserByPk s.users t.sender).isSome ∧
      (findUserByPk s.users t.address).isSome

/-- A call that cannot put a transaction of negative amount into the pool: a mining
attempt, or a `generateTransactions(count, min, max)` with `min ≥ 0`. -/
def Call.NonNegative : Call → Prop
  | Call.generate _ lo _ _ _ => 0 ≤ lo
  | Call.mine _ _ _ => True

/-! ## Sample data for the concrete instances -/

/-- A cap of two transactions per block. -/
def sampleDefines : Defines := { TRANSACTIONS_IN_BLOCK := 2, DIFFICULTY_TARGET := 3 }

/-- A cap of one transaction per block. -/
def singleDefines : Defines := { TRANSACTIONS_IN_BLOCK := 1, DIFFICULTY_TARGET := 3 }

/-- User A, with balance 100. -/
def userA : User := { name := "user0", publicKey := 1, balance := 100 }

/-- User B, with balance 0. -/
def userB : User := { name := "user1", publicKey := 2, balance := 0 }

/-- A sender with balance 10. -/
def userS : User := { name := "user0", publicKey := 1, balance := 10 }

/-- A transfer of 30 from A to B. -/
def txAB30 : Transaction := { id := 7, sender := 1, address := 2, amount := 30 }

/-- A second transfer from A to B that carries the id of `txAB30`. -/
def txAB10 : Transaction := { id := 7, sender := 1, address := 2, amount := 10 }

/-- A transfer of 5 from B, who has nothing, to A. -/
def txBA5 : Transaction := { id := 8, sender := 2, address := 1, amount := 5 }

/-- A first transfer of 6 from the sender of balance 10. -/
def tx6a : Transaction := { id := 11, sender := 1, address := 2, amount := 6 }

/-- A second transfer of 6 from the sender of balance 10. -/
def tx6b : Transaction := { id := 12, sender := 1, address := 2, amount := 6 }

/-- A search that always draws position 0, during which nobody sets the flag, and that
yields a valid hash. -/
def quietSearch : Search :=
  { draws := fun _ => 0, nonce := 5, hash := 9, raisedDuringSearch := false, hashOk := true }

/-- A search during which another worker raised the flag. -/
def cancelledSearch : Search :=
  { draws := fun _ => 0, nonce := 5, hash := 9, raisedDuringSearch := true, hashOk := true }

/-- A generator whose `k`-th raw draw is `k` and that numbers transactions from 100. -/
def countingGenerator : Generator := { rand := fun k => k, newId := fun i => 100 + i }

/-! ## Predicates for selection and generation -/

/-- Every transaction of the private pool has its sender and its recipient in the private
ledger. -/
def Selection.Closed (st : Selection) : Prop :=
  ∀ t ∈ st.poo, (findUserByPk st.us t.sender).isSome ∧ (findUserByPk st.us t.address).isSome

/-- The transaction `t` is not affordable in the ledger `us`: its sender is there and has
a balance strictly below the amount. -/
def Unaffordable (us : List User) (t : Transaction) : Prop :=
  ∃ u, findUserByPk us t.sender = some u ∧ u.balance < t.amount

/-- The transaction `t` is affordable in the ledger `us`: its sender is there and has a
balance of at least the amount. -/
def Affordable (us : List User) (t : Transaction) : Prop :=
  ∃ u, findUserByPk us t.sender = some u ∧ t.amount ≤ u.balance

/-- The sum of all balances of a ledger. -/
def totalBalance (us : List User) : Int :=
  (us.map User.balance).sum

/-- The number written by a list of decimal digit characters, most significant first. -/
def digitsValue (cs : List Char) : Nat :=
  cs.foldl (fun a c => 10 * a + (c.toNat - 48)) 0

/-- The users are named `user0`, `user1`, ... in the order of the ledger, which is how the
generator of users of the program names them and how `generateTransactions` looks them up. -/
def NamedInOrder (users : List User) : Prop :=
  ∀ i (h : i < users.length), (users.get ⟨i, h⟩).name = "user" ++ toString i

/-- The loop `do ... while (num2 == num1)` that follows the draw of `num1` at position `k`
ends with its draw number `j + 1`: with `n` users the draws at positions `k + 1` to `k + j`
give `num1` again and the draw at position `k + 1 + j` gives another number. -/
def RedrawEndsAt (rand : Nat → Nat) (n k j : Nat) : Prop :=
  rand (k + 1 + j) % n ≠ rand k % n ∧ ∀ i, i < j → rand (k + 1 + i) % n = rand k % n

/-- Every `do ... while (num2 == num1)` loop of a run of the `for` loop of
`generateTransactions` that builds `count` transactions from draw position `k` ends. An
iteration draws `num1` at `k`, redraws from `k + 1` until the loop ends at `k + 1 + j`,
draws the amount at `k + j + 2`, and the next iteration starts at `k + j + 3`. -/
def RedrawsEnd (rand : Nat → Nat) (n : Nat) : Nat → Nat → Prop
  | 0, _ => True
  | count + 1, k => ∃ j, RedrawEndsAt rand n k j ∧ RedrawsEnd rand n count (k + j + 3)

/-- What `generateTransactions(count, min, max)` has done when it returns `s1` from `s`
with at least two users: the users and the chain are untouched, the old pool is a prefix
of the new one, and the `count` transactions appended have a sender and a recipient that
are users at different positions of the ledger and an amount within `[min, max]`. -/
def Generated (s : Blockchain) (count lo hi : Int) (s1 : Blockchain) : Prop :=
  s1.users = s.users ∧ s1.blockchain = s.blockchain ∧
    ∃ new, s1.pool = s.pool ++ new ∧ new.length = count.toNat ∧
      ∀ t ∈ new, lo ≤ t.amount ∧ t.amount ≤ hi ∧
        ∃ (a b : Nat) (u v : User), a ≠ b ∧ s.users[a]? = some u ∧ s.users[b]? = some v ∧
          t.sender = u.publicKey ∧ t.address = v.publicKey

/-- A generator whose every raw draw is 0. -/
def stuckGenerator : Generator := { rand := fun _ => 0, newId := fun i => i }

/-! # Lemmas -/

/-! ## The selection loops preserve invariants -/

theorem addTransactionToNewBlockLoop_preserves (draws : Nat → Nat) (P : Selection → Prop)
    (hrej : ∀ st i t u, st.poo[i]? = some t → findUserByPk st.us t.sender = some u →
      u.balance < t.amount → P st → P (st.reject i t))
    (hacc : ∀ st i t u us1, st.poo[i]? = some t → findUserByPk st.us t.sender = some u →
      ¬ u.balance < t.amount → updateUserBalance st.us t = .ok us1 → P st →
      P (st.accept i t us1)) :
    ∀ fuel st st1, addTransactionToNewBlockLoop draws fuel st = .ok st1 → P st → P st1 := by
  intro fuel
  induction fuel with
  | zero => intro st st1 h; simp [addTransactionToNewBlockLoop] at h
  | succ n ih =>
    intro st st1 h hP
    unfold addTransactionToNewBlockLoop at h
    by_cases he : st.poo.isEmpty
    · simp only [he, if_true] at h
      cases h; exact hP
    · simp only [he] at h
      cases hg : st.poo[selectRandomTransaction st.poo (draws st.drawn)]? with
      | none => simp [hg] at h
      | some t =>
        cases hf : findUserByPk st.us t.sender with
        | none => simp [hg, hf] at h
        | some u =>
          by_cases hb : u.balance < t.amount
          · simp only [hg, hf, hb, if_true] at h
            exact ih _ _ h (hrej st _ t u hg hf hb hP)
          · cases hu : updateUserBalance st.us t with
            | ok us1 =>
              simp only [hg, hf, hb, hu] at h
              cases h
              exact hacc st _ t u us1 hg hf hb hu hP
            | undefinedBehaviour => simp [hg, hf, hb, hu] at h
            | outOfFuel => simp [hg, hf, hb, hu] at h

theorem selectionLoop_preserves (cap : Nat) (draws : Nat → Nat) (P : Selection → Prop)
    (hrej : ∀ st i t u, st.poo[i]? = some t → findUserByPk st.us t.sender = some u →
      u.balance < t.amount → P st → P (st.reject i t))
    (hacc : ∀ st i t u us1, st.poo[i]? = some t → findUserByPk st.us t.sender = some u →
      ¬ u.balance < t.amount → updateUserBalance st.us t = .ok us1 → P st →
      P (st.accept i t us1)) :
    ∀ fuel st st1, selectionLoop cap draws fuel st = .ok st1 → P st → P st1 := by
  intro fuel
  induction fuel with
  | zero =>
    intro st st1 h hP
    unfold selectionLoop at h
    split at h
    · cases h
    · cases h; exact hP
  | succ n ih =>
    intro st st1 h hP
    unfold selectionLoop at h
    split at h
    · cases ha : addTransactionToNewBlock draws st with
      | ok st2 =>
        simp only [ha] at h
        exact ih _ _ h
          (addTransactionToNewBlockLoop_preserves draws P hrej hacc _ _ _ ha hP)
      | undefinedBehaviour => simp [ha] at h
      | outOfFuel => simp [ha] at h
    · cases h; exact hP

/-! ## Ledger lemmas -/

theorem findUserByPk_mem {us : List User} {pk : Nat} {u : User}
    (h : findUserByPk us pk = some u) : u ∈ us :=
  List.mem_of_find?_eq_some h

theorem findUserByPk_cons (u : User) (us : List User) (pk : Nat) :
    findUserByPk (u :: us) pk = if u.publicKey = pk then some u else findUserByPk us pk := by
  unfold findUserByPk
  by_cases h : u.publicKey = pk
  · simp [List.find?_cons, h]
  · have h1 : (u.publicKey == pk) = false := by simpa using h
    simp [List.find?_cons, h, h1]

theorem findUserByPk_isSome_iff (us : List User) (pk : Nat) :
    (findUserByPk us pk).isSome ↔ pk ∈ us.map User.publicKey := by
  induction us with
  | nil => simp [findUserByPk]
  | cons u us ih =>
    rw [findUserByPk_cons]
    by_cases h : u.publicKey = pk
    · simp [h]
    · have h2 : ¬ pk = u.publicKey := fun e => h e.symm
      simp [h, h2, ih]

theorem findUserByPk_setBalance (pk pk1 : Nat) (b : Int) (us : List User) :
    findUserByPk (setBalance pk b us) pk1 =
      if pk1 = pk then (findUserByPk us pk).map (fun u => { u with balance := b })
      else findUserByPk us pk1 := by
  induction us with
  | nil => simp [setBalance, findUserByPk]
  | cons u us ih =>
    by_cases h : u.publicKey = pk
    · by_cases h1 : pk1 = pk
      · simp [setBalance, findUserByPk_cons, h, h1]
      · have h2 : ¬ pk = pk1 := fun e => h1 e.symm
        simp [setBalance, findUserByPk_cons, h, h1, h2]
    · by_cases h1 : pk1 = pk
      · subst h1
        simp only [setBalance, h, if_false, findUserByPk_cons, ih, if_true]
      · by_cases h3 : u.publicKey = pk1
        · simp [setBalance, findUserByPk_cons, h, h1, h3]
        · simp only [setBalance, h, if_false, findUserByPk_cons, h3, ih, h1]

theorem setBalance_keys (pk : Nat) (b : Int) (us : List User) :
    (setBalance pk b us).map User.publicKey = us.map User.publicKey := by
  induction us with
  | nil => rfl
  | cons u us ih =>
    by_cases h : u.publicKey = pk
    · simp [setBalance, h]
    · simp [setBalance, h, ih]

theorem setBalance_nonneg (pk : Nat) (b : Int) (us : List User) (hb : 0 ≤ b)
    (h : ∀ u ∈ us, 0 ≤ u.balance) : ∀ u ∈ setBalance pk b us, 0 ≤ u.balance := by
  induction us with
  | nil => intro u hu; simp [setBalance] at hu
  | cons v us ih =>
    intro u hu
    by_cases hv : v.publicKey = pk
    · simp only [setBalance, hv, if_true, List.mem_cons] at hu
      rcases hu with rfl | hu
      · exact hb
      · exact h u (List.mem_cons_of_mem _ hu)
    · simp only [setBalance, hv, if_false, List.mem_cons] at hu
      rcases hu with rfl | hu
      · exact h _ (List.mem_cons_self _ _)
      · exact ih (fun w hw => h w (List.mem_cons_of_mem _ hw)) u hu

theorem updateUserBalance_keys {us us1 : List User} {t : Transaction}
    (h : updateUserBalance us t = .ok us1) :
    us1.map User.publicKey = us.map User.publicKey := by
  unfold updateUserBalance at h
  cases hs : findUserByPk us t.sender with
  | none => simp [hs] at h
  | some s =>
    simp only [hs] at h
    split at h
    · cases h
    · cases h
      rw [setBalance_keys, setBalance_keys]

theorem updateUserBalance_nonneg {us us1 : List User} {t : Transaction} {u : User}
    (hn : ∀ v ∈ us, 0 ≤ v.balance) (hf : findUserByPk us t.sender = some u)
    (hle : t.amount ≤ u.balance) (ha : 0 ≤ t.amount)
    (h : updateUserBalance us t = .ok us1) : ∀ v ∈ us1, 0 ≤ v.balance := by
  unfold updateUserBalance at h
  rw [hf] at h
  simp only at h
  have h1 : ∀ v ∈ setBalance t.sender (u.balance - t.amount) us, 0 ≤ v.balance :=
    setBalance_nonneg _ _ _ (by omega) hn
  split at h
  · cases h
  · rename_i r hr
    cases h
    exact setBalance_nonneg _ _ _ (by have := h1 r (findUserByPk_mem hr); omega) h1

theorem applyTransactions_keys {ts : List Transaction} :
    ∀ {us us1 : List User}, applyTransactions us ts = .ok us1 →
      us1.map User.publicKey = us.map User.publicKey := by
  induction ts with
  | nil => intro us us1 h; cases h; rfl
  | cons t ts ih =>
    intro us us1 h
    unfold applyTransactions at h
    cases hu : updateUserBalance us t with
    | ok us2 =>
      simp only [hu] at h
      rw [ih h, updateUserBalance_keys hu]
    | undefinedBehaviour => simp [hu] at h
    | outOfFuel => simp [hu] at h

theorem applyTransactions_snoc {ts : List Transaction} {t : Transaction} :
    ∀ {us us1 us2 : List User}, applyTransactions us ts = .ok us1 →
      updateUserBalance us1 t = .ok us2 → applyTransactions us (ts ++ [t]) = .ok us2 := by
  induction ts with
  | nil =>
    intro us us1 us2 h hu
    cases h
    simp [applyTransactions, hu]
  | cons a ts ih =>
    intro us us1 us2 h hu
    unfold applyTransactions at h
    cases ha : updateUserBalance us a with
    | ok us3 =>
      simp only [ha] at h
      simp only [List.cons_append, applyTransactions, ha]
      exact ih h hu
    | undefinedBehaviour => simp [ha] at h
    | outOfFuel => simp [ha] at h

/-! ## What selection keeps true of the snapshot -/

theorem cons_eraseIdx_perm {t : Transaction} :
    ∀ {l : List Transaction} {i : Nat}, l[i]? = some t → (t :: l.eraseIdx i).Perm l := by
  intro l
  induction l with
  | nil => intro i h; simp at h
  | cons a l ih =>
    intro i h
    cases i with
    | zero =>
      simp at h
      subst h
      simp
    | succ j =>
      simp at h
      simp only [List.eraseIdx_cons_succ]
      exact (List.Perm.swap a t _).trans ((ih h).cons a)

theorem mem_of_getElem?_eq_some {t : Transaction} {l : List Transaction} {i : Nat}
    (h : l[i]? = some t) : t ∈ l :=
  (cons_eraseIdx_perm h).subset (List.mem_cons_self _ _)

theorem mem_snapshot_of_tracks {us0 : List User} {pool0 : List Transaction} {st : Selection}
    (h : st.Tracks us0 pool0) {t : Transaction} (ht : t ∈ st.poo) : t ∈ pool0 :=
  h.1.subset (List.mem_append_right _ ht)

theorem tracks_reject {us0 : List User} {pool0 : List Transaction} {st : Selection}
    {i : Nat} {t : Transaction} (hg : st.poo[i]? = some t) (hP : st.Tracks us0 pool0) :
    (st.reject i t).Tracks us0 pool0 := by
  refine ⟨?_, hP.2⟩
  have hp := cons_eraseIdx_perm hg
  simp only [Selection.reject]
  refine List.Perm.trans ?_ hP.1
  simp only [List.append_assoc]
  refine List.Perm.append_left _ (List.Perm.append_left _ ?_)
  simpa using hp

theorem tracks_accept {us0 : List User} {pool0 : List Transaction} {st : Selection}
    {i : Nat} {t : Transaction} {us1 : List User} (hg : st.poo[i]? = some t)
    (hu : updateUserBalance st.us t = .ok us1) (hP : st.Tracks us0 pool0) :
    (st.accept i t us1).Tracks us0 pool0 := by
  refine ⟨?_, applyTransactions_snoc hP.2 hu⟩
  have hp := cons_eraseIdx_perm hg
  simp only [Selection.accept]
  refine List.Perm.trans ?_ hP.1
  simp only [List.append_assoc]
  refine List.Perm.append_left _ ?_
  simp only [List.singleton_append]
  exact List.perm_middle.symm.trans (List.Perm.append_left _ hp)

theorem selectionLoop_tracks (cap : Nat) (draws : Nat → Nat) (us0 : List User)
    (pool0 : List Transaction) :
    ∀ fuel st st1, selectionLoop cap draws fuel st = .ok st1 →
      st.Tracks us0 pool0 → st1.Tracks us0 pool0 := by
  apply selectionLoop_preserves
  · intro st i t u hg _ _ hP
    exact tracks_reject hg hP
  · intro st i t u us1 hg _ _ hu hP
    exact tracks_accept hg hu hP

theorem selectTransactions_tracks {cap : Nat} {draws : Nat → Nat} {us0 : List User}
    {pool0 : List Transaction} {sel : Selection}
    (h : selectTransactions cap draws us0 pool0 = .ok sel) : sel.Tracks us0 pool0 :=
  selectionLoop_tracks cap draws us0 pool0 _ _ _ h ⟨by simp, rfl⟩

theorem selectionLoop_nonneg (cap : Nat) (draws : Nat → Nat) (us0 : List User)
    (pool0 : List Transaction) (hpos : ∀ t ∈ pool0, 0 ≤ t.amount) :
    ∀ fuel st st1, selectionLoop cap draws fuel st = .ok st1 →
      (st.Tracks us0 pool0 ∧ ∀ v ∈ st.us, 0 ≤ v.balance) →
      (st1.Tracks us0 pool0 ∧ ∀ v ∈ st1.us, 0 ≤ v.balance) := by
  apply selectionLoop_preserves
  · intro st i t u hg _ _ hP
    exact ⟨tracks_reject hg hP.1, hP.2⟩
  · intro st i t u us1 hg hf hb hu hP
    refine ⟨tracks_accept hg hu hP.1, ?_⟩
    have ht : 0 ≤ t.amount := hpos t (mem_snapshot_of_tracks hP.1 (mem_of_getElem?_eq_some hg))
    exact updateUserBalance_nonneg hP.2 hf (by omega) ht hu

theorem selectTransactions_nonneg {cap : Nat} {draws : Nat → Nat} {us0 : List User}
    {pool0 : List Transaction} {sel : Selection}
    (hpos : ∀ t ∈ pool0, 0 ≤ t.amount) (hn : ∀ v ∈ us0, 0 ≤ v.balance)
    (h : selectTransactions cap draws us0 pool0 = .ok sel) : ∀ v ∈ sel.us, 0 ≤ v.balance :=
  (selectionLoop_nonneg cap draws us0 pool0 hpos _ _ _ h ⟨⟨by simp, rfl⟩, hn⟩).2

/-! ## Pool pruning lemmas -/

theorem removeTransactions_sublist {txs : List Transaction} :
    ∀ {pool p : List Transaction}, removeTransactions pool txs = .ok p → p.Sublist pool := by
  induction txs with
  | nil => intro pool p h; cases h; exact List.Sublist.refl _
  | cons t txs ih =>
    intro pool p h
    unfold removeTransactions at h
    split at h
    · exact (ih h).trans (List.eraseP_sublist _)
    · cases h

theorem removeTransactions_append {a b : List Transaction} :
    ∀ {pool p1 p2 : List Transaction}, removeTransactions pool a = .ok p1 →
      removeTransactions p1 b = .ok p2 → removeTransactions pool (a ++ b) = .ok p2 := by
  induction a with
  | nil => intro pool p1 p2 h1 h2; cases h1; simpa using h2
  | cons t a ih =>
    intro pool p1 p2 h1 h2
    unfold removeTransactions at h1
    split at h1
    · rename_i hany
      simp only [List.cons_append, removeTransactions, hany, if_true]
      exact ih h1 h2
    · cases h1

theorem eraseP_id_eq_filter (i : Nat) :
    ∀ {pool : List Transaction}, (pool.map Transaction.id).Nodup →
      pool.eraseP (fun tr => tr.id == i) = pool.filter (fun tr => decide (tr.id ≠ i)) := by
  intro pool
  induction pool with
  | nil => intro _; rfl
  | cons a pool ih =>
    intro hnd
    simp only [List.map_cons, List.nodup_cons] at hnd
    by_cases ha : a.id = i
    · have hnone : ∀ x ∈ pool, ¬ (decide (x.id ≠ i)) = false := by
        intro x hx hxi
        have : x.id = i := by simpa using hxi
        exact hnd.1 (by rw [ha, ← this]; exact List.mem_map_of_mem _ hx)
      simp only [List.eraseP_cons, ha, beq_self_eq_true, cond_true, ne_eq, not_true_eq_false,
        decide_False, Bool.false_eq_true, not_false_eq_true, List.filter_cons_of_neg]
      symm
      rw [List.filter_eq_self]
      intro x hx
      simpa using hnone x hx
    · have h1 : (a.id == i) = false := by simpa using ha
      simp [List.eraseP_cons, h1, ha, ih hnd.2]

theorem removeTransactions_eq_filter {txs : List Transaction} :
    ∀ {pool p : List Transaction}, (pool.map Transaction.id).Nodup →
      removeTransactions pool txs = .ok p →
      p = pool.filter (fun tr => decide (tr.id ∉ txs.map Transaction.id)) := by
  induction txs with
  | nil => intro pool p _ h; cases h; simp
  | cons t txs ih =>
    intro pool p hnd h
    unfold removeTransactions at h
    split at h
    · have hsub : (pool.eraseP (fun tr => tr.id == t.id)).Sublist pool := List.eraseP_sublist _
      have hnd1 : ((pool.eraseP (fun tr => tr.id == t.id)).map Transaction.id).Nodup :=
        List.Nodup.sublist (hsub.map _) hnd
      rw [ih hnd1 h, eraseP_id_eq_filter t.id hnd, List.filter_filter]
      congr 1
      funext tr
      simp only [List.map_cons, List.mem_cons, not_or]
      by_cases h1 : tr.id = t.id <;> simp [h1]
    · cases h

/-! ## The paths through the commit section and through `mineBlock` -/

theorem removeTransactions_guarded (pool1 invalidTxs : List Transaction) :
    (if invalidTxs.isEmpty then Res.ok pool1 else removeTransactions pool1 invalidTxs) =
      removeTransactions pool1 invalidTxs := by
  cases invalidTxs with
  | nil => simp [removeTransactions]
  | cons t ts => simp

theorem commitSection_lost {s : Blockchain} {flag : Bool} {h : Nat} {block : Block}
    {invalidTxs : List Transaction} (hne : s.blockchain.length ≠ h) :
    commitSection s flag h block invalidTxs = .ok (s, flag, Exit.lostRace) := by
  simp [commitSection, hne]

theorem commitSection_ok {s s1 : Blockchain} {flag f1 : Bool} {h : Nat} {block : Block}
    {invalidTxs : List Transaction} {e : Exit}
    (hc : commitSection s flag h block invalidTxs = .ok (s1, f1, e)) :
    (s.blockchain.length ≠ h ∧ s1 = s ∧ f1 = flag ∧ e = Exit.lostRace) ∨
    (s.blockchain.length = h ∧ e = Exit.committed ∧ f1 = true ∧
      ∃ users1 pool1 pool2,
        applyTransactions s.users block.transactions = .ok users1 ∧
        removeTransactions s.pool block.transactions = .ok pool1 ∧
        removeTransactions pool1 invalidTxs = .ok pool2 ∧
        s1 = { users := users1, pool := pool2, blockchain := s.blockchain ++ [block] }) := by
  by_cases hh : s.blockchain.length = h
  · right
    unfold commitSection at hc
    simp only [removeTransactions_guarded, hh, if_true] at hc
    cases ha : applyTransactions s.users block.transactions with
    | ok users1 =>
      cases hr : removeTransactions s.pool block.transactions with
      | ok pool1 =>
        cases hi : removeTransactions pool1 invalidTxs with
        | ok pool2 =>
          simp only [ha, hr, hi, Res.ok.injEq, Prod.mk.injEq] at hc
          obtain ⟨h1, h2, h3⟩ := hc
          exact ⟨hh, h3.symm, h2.symm, users1, pool1, pool2, rfl, rfl, hi, h1.symm⟩
        | undefinedBehaviour => simp [ha, hr, hi] at hc
        | outOfFuel => simp [ha, hr, hi] at hc
      | undefinedBehaviour => simp [ha, hr] at hc
      | outOfFuel => simp [ha, hr] at hc
    | undefinedBehaviour => simp [ha] at hc
    | outOfFuel => simp [ha] at hc
  · left
    rw [commitSection_lost hh] at hc
    simp only [Res.ok.injEq, Prod.mk.injEq] at hc
    exact ⟨hh, hc.1.symm, hc.2.1.symm, hc.2.2.symm⟩

/-- Every way in which a sequential `mineBlock` returns. -/
theorem mineBlock_cases {d : Defines} {s : Blockchain} {h : Nat} {flag : Bool} {o : Search}
    {a : Attempt} (hm : mineBlock d s h flag o = .ok a) :
    (a.chain = s ∧
      ((a.exit ≠ Exit.cancelled → a.finishedMining = flag) ∧
        (a.exit = Exit.cancelled →
          a.finishedMining = true ∧ flagAfterSearch flag o = true)) ∧
      a.exit ≠ Exit.committed ∧ a.exit ≠ Exit.noCandidates) ∨
    (∃ sel, selectTransactions d.TRANSACTIONS_IN_BLOCK o.draws s.users s.pool = .ok sel ∧
      sel.candidates = [] ∧ a.candidates = [] ∧ a.invalidTxs = sel.invalid ∧
      a.chain = { s with pool := [] } ∧ a.finishedMining = flag ∧
      a.exit = Exit.noCandidates) ∨
    (∃ sel users1 pool1 pool2,
      selectTransactions d.TRANSACTIONS_IN_BLOCK o.draws s.users s.pool = .ok sel ∧
      sel.candidates ≠ [] ∧ a.candidates = sel.candidates ∧ a.invalidTxs = sel.invalid ∧
      s.blockchain.length = h ∧ flagAfterSearch flag o = false ∧ o.hashOk = true ∧
      applyTransactions s.users sel.candidates = .ok users1 ∧
      removeTransactions s.pool sel.candidates = .ok pool1 ∧
      removeTransactions pool1 sel.invalid = .ok pool2 ∧
      a.chain = { users := users1, pool := pool2,
                  blockchain := s.blockchain ++ [minedBlock d s.blockchain sel.candidates o] } ∧
      a.finishedMining = true ∧ a.exit = Exit.committed) := by
  unfold mineBlock at hm
  by_cases hu : s.users.isEmpty
  · simp only [hu, if_true] at hm
    cases hm
    exact Or.inl ⟨rfl, ⟨fun _ => rfl, fun he => by simp at he⟩, by simp, by simp⟩
  · by_cases hp : s.pool.isEmpty
    · simp only [hu, hp, if_true] at hm
      cases hm
      exact Or.inl ⟨rfl, ⟨fun _ => rfl, fun he => by simp at he⟩, by simp, by simp⟩
    · simp only [hu, hp] at hm
      cases hs : selectTransactions d.TRANSACTIONS_IN_BLOCK o.draws s.users s.pool with
      | undefinedBehaviour => simp [hs] at hm
      | outOfFuel => simp [hs] at hm
      | ok sel =>
        simp only [hs] at hm
        by_cases hc : sel.candidates = []
        · simp only [hc, List.isEmpty_nil, if_true, Bool.true_and] at hm
          cases hm
          exact Or.inr (Or.inl ⟨sel, rfl, hc, rfl, rfl, rfl, rfl, rfl⟩)
        · have hc1 : sel.candidates.isEmpty = false := by
            cases hcs : sel.candidates with
            | nil => exact absurd hcs hc
            | cons x xs => rfl
          simp only [hc1, Bool.false_and] at hm
          unfold mineAndCommit at hm
          by_cases hcan : flagAfterSearch flag o = true
          · simp only [hcan, if_true] at hm
            cases hm
            exact Or.inl ⟨rfl, ⟨fun hne => absurd rfl hne, fun _ => ⟨rfl, hcan⟩⟩,
              by simp, by simp⟩
          · have hcanf : flagAfterSearch flag o = false := by simpa using hcan
            have hflag : flag = false := by
              unfold flagAfterSearch at hcanf
              cases flag
              · rfl
              · simp at hcanf
            by_cases hok : o.hashOk = true
            · simp only [hcanf, hok] at hm
              cases hcs : commitSection s false h (minedBlock d s.blockchain sel.candidates o)
                  sel.invalid with
              | undefinedBehaviour => simp [hcs] at hm
              | outOfFuel => simp [hcs] at hm
              | ok r =>
                obtain ⟨s1, f1, e⟩ := r
                simp [hcs] at hm
                subst hm
                rcases commitSection_ok hcs with ⟨_, h2, h3, h4⟩ |
                  ⟨h1, h2, h3, u1, p1, p2, h5, h6, h7, h8⟩
                · subst h2 h3 h4
                  exact Or.inl ⟨rfl, ⟨fun _ => hflag.symm, fun he => by simp at he⟩,
                    by simp, by simp⟩
                · subst h2 h3 h8
                  exact Or.inr (Or.inr ⟨sel, u1, p1, p2, rfl, hc, rfl, rfl, h1, hcanf, hok,
                    h5, h6, h7, rfl, rfl, rfl⟩)
            · simp [hcanf, hok] at hm
              subst hm
              exact Or.inl ⟨rfl, ⟨fun _ => hflag.symm, fun he => by simp at he⟩,
                by simp, by simp⟩

/-! ## The two operations keep the state sound -/

theorem findUserByPk_isSome_of_keys {us us1 : List User} {pk : Nat}
    (hk : us1.map User.publicKey = us.map User.publicKey)
    (h : (findUserByPk us pk).isSome) : (findUserByPk us1 pk).isSome := by
  rw [findUserByPk_isSome_iff] at h ⊢
  rw [hk]; exact h

theorem mineBlock_sound {d : Defines} {s : Blockchain} {h : Nat} {flag : Bool} {o : Search}
    {a : Attempt} (hs : s.Sound) (hm : mineBlock d s h flag o = .ok a) : a.chain.Sound := by
  rcases mineBlock_cases hm with ⟨h1, _⟩ |
    ⟨sel, _, _, _, _, h5, _⟩ |
    ⟨sel, u1, p1, p2, hsel, _, _, _, _, _, _, h8, h9, h10, h11, _, _⟩
  · rw [h1]; exact hs
  · rw [h5]
    exact ⟨hs.1, by simp⟩
  · have htr := selectTransactions_tracks hsel
    have hu : u1 = sel.us := by
      have := htr.2
      rw [h8] at this
      cases this; rfl
    have hnn := selectTransactions_nonneg (fun t ht => (hs.2 t ht).1) hs.1 hsel
    have hk := applyTransactions_keys h8
    have hsub : p2.Sublist s.pool := (removeTransactions_sublist h10).trans
      (removeTransactions_sublist h9)
    rw [h11]
    refine ⟨by rw [hu]; exact hnn, ?_⟩
    intro t ht
    have := hs.2 t (hsub.subset ht)
    exact ⟨this.1, findUserByPk_isSome_of_keys hk this.2.1,
      findUserByPk_isSome_of_keys hk this.2.2⟩

theorem generateRandomNumber_ge {lo hi x : Int} {d : Nat}
    (h : generateRandomNumber lo hi d = some x) : lo ≤ x := by
  unfold generateRandomNumber at h
  split at h
  · cases h; omega
  · cases h

theorem findUserByUsername_pk {us : List User} {name : String} {u : User}
    (h : findUserByUsername us name = some u) : (findUserByPk us u.publicKey).isSome := by
  rw [findUserByPk_isSome_iff]
  exact List.mem_map_of_mem _ (List.mem_of_find?_eq_some h)

theorem generateLoop_sound (g : Generator) (users : List User) (lo hi : Int) (fuel : Nat)
    (hlo : 0 ≤ lo) :
    ∀ (count i k : Nat) (pool pool1 : List Transaction),
      generateLoop g users lo hi fuel count i k pool = .ok pool1 →
      (∀ t ∈ pool, 0 ≤ t.amount ∧ (findUserByPk users t.sender).isSome ∧
        (findUserByPk users t.address).isSome) →
      ∀ t ∈ pool1, 0 ≤ t.amount ∧ (findUserByPk users t.sender).isSome ∧
        (findUserByPk users t.address).isSome := by
  intro count
  induction count with
  | zero => intro i k pool pool1 h hp; cases h; exact hp
  | succ n ih =>
    intro i k pool pool1 h hp
    unfold generateLoop at h
    cases h1 : generateRandomNumber 0 ((users.length : Int) - 1) (g.rand k) with
    | none => simp [h1] at h
    | some num1 =>
      cases h2 : findUserByUsername users ("user" ++ toString num1) with
      | none => simp [h1, h2] at h
      | some sender =>
        cases h3 : drawOther g.rand users.length num1 fuel (k + 1) with
        | undefinedBehaviour => simp [h1, h2, h3] at h
        | outOfFuel => simp [h1, h2, h3] at h
        | ok r =>
          obtain ⟨num2, k1⟩ := r
          cases h4 : findUserByUsername users ("user" ++ toString num2) with
          | none => simp [h1, h2, h3, h4] at h
          | some address =>
            cases h5 : generateRandomNumber lo hi (g.rand k1) with
            | none => simp [h1, h2, h3, h4, h5] at h
            | some amt =>
              simp only [h1, h2, h3, h4, h5] at h
              refine ih _ _ _ _ h ?_
              intro t ht
              rcases List.mem_append.1 ht with ht | ht
              · exact hp t ht
              · simp only [List.mem_singleton] at ht
                subst ht
                exact ⟨le_trans hlo (generateRandomNumber_ge h5), findUserByUsername_pk h2,
                  findUserByUsername_pk h4⟩

theorem generateTransactions_sound {s s1 : Blockchain} {count lo hi : Int} {g : Generator}
    {fuel : Nat} (hlo : 0 ≤ lo) (hs : s.Sound)
    (hg : generateTransactions s count lo hi g fuel = .ok s1) : s1.Sound := by
  unfold generateTransactions at hg
  split at hg
  · cases hg; exact hs
  · cases hl : generateLoop g s.users lo hi fuel count.toNat 0 0 s.pool with
    | ok pool1 =>
      simp only [hl] at hg
      cases hg
      exact ⟨hs.1, generateLoop_sound g s.users lo hi fuel hlo _ _ _ _ _ hl hs.2⟩
    | undefinedBehaviour => simp [hl] at hg
    | outOfFuel => simp [hl] at hg

theorem runCalls_sound (d : Defines) :
    ∀ (calls : List Call) (s s1 : Blockchain), s.Sound → (∀ c ∈ calls, c.NonNegative) →
      runCalls d s calls = .ok s1 → s1.Sound := by
  intro calls
  induction calls with
  | nil => intro s s1 hs _ h; cases h; exact hs
  | cons c cs ih =>
    intro s s1 hs hc h
    have hrest : ∀ x ∈ cs, x.NonNegative := fun x hx => hc x (List.mem_cons_of_mem _ hx)
    have hhead := hc c (List.mem_cons_self _ _)
    cases c with
    | generate count lo hi g fuel =>
      unfold runCalls at h
      cases hg : generateTransactions s count lo hi g fuel with
      | ok s2 =>
        simp only [hg] at h
        exact ih s2 s1 (generateTransactions_sound hhead hs hg) hrest h
      | undefinedBehaviour => simp [hg] at h
      | outOfFuel => simp [hg] at h
    | mine h0 flag o =>
      unfold runCalls at h
      cases hm : mineBlock d s h0 flag o with
      | ok a =>
        simp only [hm] at h
        exact ih a.chain s1 (mineBlock_sound hs hm) hrest h
      | undefinedBehaviour => simp [hm] at h
      | outOfFuel => simp [hm] at h

/-! ## An accepted transfer followed by a rejected one -/

theorem updateUserBalance_of_lookups {us : List User} {t : Transaction} {u r : User}
    (hu : findUserByPk us t.sender = some u) (hne : t.address ≠ t.sender)
    (hr : findUserByPk us t.address = some r) :
    updateUserBalance us t =
      .ok (setBalance t.address (r.balance + t.amount)
            (setBalance t.sender (u.balance - t.amount) us)) := by
  unfold updateUserBalance
  simp only [hu, findUserByPk_setBalance, hne, if_false, hr]

theorem findUserByPk_sender_after {us : List User} {t : Transaction} {u : User} (b c : Int)
    (hu : findUserByPk us t.sender = some u) (hne : t.address ≠ t.sender) :
    findUserByPk (setBalance t.address c (setBalance t.sender b us)) t.sender =
      some { u with balance := b } := by
  have hne1 : ¬ t.sender = t.address := fun e => hne e.symm
  simp only [findUserByPk_setBalance, hne1, if_false, if_true, hu, Option.map_some']

theorem selectionLoop_accept_then_reject (cap : Nat) (hcap : 2 ≤ cap) (draws : Nat → Nat)
    (us : List User) (u r : User) (ta tb : Transaction) (pool : List Transaction)
    (hlen : pool.length = 2)
    (hget : pool[draws 0 % 2]? = some ta) (herase : pool.eraseIdx (draws 0 % 2) = [tb])
    (hu : findUserByPk us ta.sender = some u) (hbal : u.balance = 10)
    (hsame : tb.sender = ta.sender) (ha : ta.amount = 6) (hb : tb.amount = 6)
    (hne : ta.address ≠ ta.sender) (hr : findUserByPk us ta.address = some r) :
    selectTransactions cap draws us pool =
      .ok { us := setBalance ta.address (r.balance + 6) (setBalance ta.sender 4 us),
            poo := [], invalid := [tb], candidates := [ta], drawn := 2 } := by
  have hupd := updateUserBalance_of_lookups hu hne hr
  rw [ha, hbal] at hupd
  have hafter := findUserByPk_sender_after (10 - 6) (r.balance + 6) hu hne
  have hpne : pool.isEmpty = false := by
    cases pool with
    | nil => simp at hlen
    | cons x xs => rfl
  have h0 : 0 < cap := by omega
  have h1 : 1 < cap := by omega
  have hm1 : draws 1 % 1 = 0 := Nat.mod_one _
  have hlt : ¬ (u.balance < ta.amount) := by rw [hbal, ha]; decide
  have h4 : (4 : Int) < tb.amount := by rw [hb]; decide
  have h46 : (10 : Int) - 6 = 4 := by decide
  rw [h46] at hupd hafter
  unfold selectTransactions
  rw [hlen]
  simp only [selectionLoop, hpne, h0, Bool.not_false, decide_True, Bool.and_self, if_true,
    addTransactionToNewBlock, addTransactionToNewBlockLoop, Bool.false_eq_true, if_false,
    selectRandomTransaction, hlen, hget, hu, hlt, hupd, List.nil_append, herase,
    List.isEmpty_cons, List.length_singleton, h1, hm1, List.getElem?_cons_zero, hsame,
    hafter, h4, List.eraseIdx_cons_zero, List.isEmpty_nil, Bool.not_true, Bool.false_and,
    List.length_nil]

/-! ## Commit steps and chain ids -/

theorem runCommitSteps_all_lost {s : Blockchain} {flag : Bool} :
    ∀ (cs : List CommitStep), (∀ x ∈ cs, s.blockchain.length ≠ x.initialBlockchainSize) →
      runCommitSteps s flag cs = .ok (s, flag, List.replicate cs.length Exit.lostRace) := by
  intro cs
  induction cs with
  | nil => intro _; rfl
  | cons c cs ih =>
    intro hall
    have hc := hall c (List.mem_cons_self _ _)
    have hcs := ih (fun x hx => hall x (List.mem_cons_of_mem _ hx))
    simp [runCommitSteps, commitSection_lost hc, hcs, List.replicate_succ]

theorem chainIds_append (xs ys : List Block) :
    chainIds (xs ++ ys) = chainIds xs ++ chainIds ys := by
  induction xs with
  | nil => rfl
  | cons b xs ih => simp [chainIds, ih]

/-! ## The fuel given to the loops is enough -/

theorem updateUserBalance_ne_outOfFuel (us : List User) (t : Transaction) :
    updateUserBalance us t ≠ .outOfFuel := by
  unfold updateUserBalance
  cases findUserByPk us t.sender with
  | none => simp
  | some s =>
    simp only
    cases findUserByPk (setBalance t.sender (s.balance - t.amount) us) t.address with
    | none => simp
    | some r => simp

theorem lt_length_of_getElem?_eq_some {l : List Transaction} {i : Nat} {t : Transaction}
    (h : l[i]? = some t) : i < l.length := by
  by_contra hge
  rw [List.getElem?_eq_none (by omega)] at h
  cases h

theorem addTransactionToNewBlockLoop_shrinks (draws : Nat → Nat) :
    ∀ fuel st, st.poo.length < fuel →
      addTransactionToNewBlockLoop draws fuel st ≠ .outOfFuel ∧
      ∀ st1, addTransactionToNewBlockLoop draws fuel st = .ok st1 →
        st1.poo.length ≤ st.poo.length ∧ (st.poo ≠ [] → st1.poo.length < st.poo.length) := by
  intro fuel
  induction fuel with
  | zero => intro st h; omega
  | succ n ih =>
    intro st hlen
    unfold addTransactionToNewBlockLoop
    by_cases he : st.poo.isEmpty
    · have hnil : st.poo = [] := List.isEmpty_iff.1 he
      simp only [he, if_true]
      refine ⟨by simp, ?_⟩
      intro st1 h
      cases h
      exact ⟨le_refl _, fun hne => absurd hnil hne⟩
    · simp only [he]
      cases hg : st.poo[selectRandomTransaction st.poo (draws st.drawn)]? with
      | none => simp
      | some t =>
        have hi := lt_length_of_getElem?_eq_some hg
        have hlen1 : (st.poo.eraseIdx (selectRandomTransaction st.poo (draws st.drawn))).length
            = st.poo.length - 1 := List.length_eraseIdx_of_lt hi
        cases hf : findUserByPk st.us t.sender with
        | none => simp [hg, hf]
        | some u =>
          by_cases hb : u.balance < t.amount
          · simp only [hg, hf, hb, if_true]
            have hrec := ih
              { st with invalid := st.invalid ++ [t],
                        poo := st.poo.eraseIdx (selectRandomTransaction st.poo (draws st.drawn)),
                        drawn := st.drawn + 1 }
              (by simp only [hlen1]; omega)
            refine ⟨hrec.1, ?_⟩
            intro st1 h
            have := (hrec.2 st1 h).1
            simp only [hlen1] at this
            exact ⟨by omega, fun _ => by omega⟩
          · simp only [hg, hf, hb, if_false]
            cases hu : updateUserBalance st.us t with
            | ok us1 =>
              simp only [hu]
              refine ⟨by simp, ?_⟩
              intro st1 h
              cases h
              simp only [hlen1]
              exact ⟨by omega, fun _ => by omega⟩
            | undefinedBehaviour => simp [hu]
            | outOfFuel => exact absurd hu (updateUserBalance_ne_outOfFuel _ _)

theorem selectionLoop_ne_outOfFuel (cap : Nat) (draws : Nat → Nat) :
    ∀ fuel st, st.poo.length ≤ fuel → selectionLoop cap draws fuel st ≠ .outOfFuel := by
  intro fuel
  induction fuel with
  | zero =>
    intro st h
    have hnil : st.poo = [] := List.length_eq_zero.1 (by omega)
    simp [selectionLoop, hnil]
  | succ n ih =>
    intro st h
    unfold selectionLoop
    split
    · rename_i hc
      have hne : st.poo ≠ [] := by
        intro hnil
        simp [hnil] at hc
      have hs := addTransactionToNewBlockLoop_shrinks draws (st.poo.length + 1) st (by omega)
      cases ha : addTransactionToNewBlock draws st with
      | ok st1 =>
        simp only
        have := (hs.2 st1 ha).2 hne
        exact ih st1 (by omega)
      | undefinedBehaviour => simp
      | outOfFuel => exact absurd ha hs.1
    · simp

theorem selectTransactions_ne_outOfFuel (cap : Nat) (draws : Nat → Nat) (users : List User)
    (pool : List Transaction) : selectTransactions cap draws users pool ≠ .outOfFuel :=
  selectionLoop_ne_outOfFuel cap draws pool.length
    { us := users, poo := pool, invalid := [], candidates := [], drawn := 0 } (le_refl _)

theorem applyTransactions_ne_outOfFuel (ts : List Transaction) :
    ∀ us : List User, applyTransactions us ts ≠ .outOfFuel := by
  induction ts with
  | nil => intro us; simp [applyTransactions]
  | cons t ts ih =>
    intro us
    unfold applyTransactions
    cases hu : updateUserBalance us t with
    | ok us1 => exact ih us1
    | undefinedBehaviour => simp
    | outOfFuel => exact absurd hu (updateUserBalance_ne_outOfFuel _ _)

theorem removeTransactions_ne_outOfFuel (txs : List Transaction) :
    ∀ pool : List Transaction, removeTransactions pool txs ≠ .outOfFuel := by
  induction txs with
  | nil => intro pool; simp [removeTransactions]
  | cons t txs ih =>
    intro pool
    unfold removeTransactions
    split
    · exact ih _
    · simp

theorem commitSection_ne_outOfFuel (s : Blockchain) (flag : Bool) (h : Nat) (block : Block)
    (invalidTxs : List Transaction) :
    commitSection s flag h block invalidTxs ≠ .outOfFuel := by
  unfold commitSection
  simp only [removeTransactions_guarded]
  split
  · cases ha : applyTransactions s.users block.transactions with
    | ok users1 =>
      cases hr : removeTransactions s.pool block.transactions with
      | ok pool1 =>
        cases hi : removeTransactions pool1 invalidTxs with
        | ok pool2 => simp [hi]
        | undefinedBehaviour => simp [hi]
        | outOfFuel => exact absurd hi (removeTransactions_ne_outOfFuel _ _)
      | undefinedBehaviour => simp
      | outOfFuel => exact absurd hr (removeTransactions_ne_outOfFuel _ _)
    | undefinedBehaviour => simp
    | outOfFuel => exact absurd ha (applyTransactions_ne_outOfFuel _ _)
  · simp

theorem mineAndCommit_ne_outOfFuel (d : Defines) (s : Blockchain) (h : Nat) (flag : Bool)
    (o : Search) (sel : Selection) : mineAndCommit d s h flag o sel ≠ .outOfFuel := by
  unfold mineAndCommit
  by_cases hcan : flagAfterSearch flag o = true
  · simp [hcan]
  · have hcanf : flagAfterSearch flag o = false := by simpa using hcan
    by_cases hok : o.hashOk = true
    · simp only [hcanf, hok, Bool.false_eq_true, if_false, Bool.not_true]
      cases hc : commitSection s false h (minedBlock d s.blockchain sel.candidates o)
          sel.invalid with
      | ok r => simp
      | undefinedBehaviour => simp
      | outOfFuel => exact absurd hc (commitSection_ne_outOfFuel _ _ _ _ _)
    · simp [hcanf, hok]

/-- A sequential `mineBlock` never runs out of fuel: it returns, or it reaches undefined
behaviour. -/
theorem mineBlock_ne_outOfFuel (d : Defines) (s : Blockchain) (h : Nat) (flag : Bool)
    (o : Search) : mineBlock d s h flag o ≠ .outOfFuel := by
  unfold mineBlock
  by_cases hu : s.users.isEmpty = true
  · simp [hu]
  · by_cases hp : s.pool.isEmpty = true
    · simp [hu, hp]
    · simp only [hu, hp, Bool.false_eq_true, if_false]
      cases hs : selectTransactions d.TRANSACTIONS_IN_BLOCK o.draws s.users s.pool with
      | outOfFuel => exact absurd hs (selectTransactions_ne_outOfFuel _ _ _ _)
      | undefinedBehaviour => simp
      | ok sel =>
        simp only
        by_cases hc : sel.candidates.isEmpty = true
        · simp [hc]
        · simp only [hc, Bool.false_eq_true, if_false, Bool.false_and]
          exact mineAndCommit_ne_outOfFuel _ _ _ _ _ _

/-! ## What one call of `addTransactionToNewBlock` does -/

theorem addTransactionToNewBlockLoop_outcome (draws : Nat → Nat) :
    ∀ fuel st st1, addTransactionToNewBlockLoop draws fuel st = .ok st1 →
      ∃ rejected, st1.invalid = st.invalid ++ rejected ∧
        (∀ t ∈ rejected, Unaffordable st.us t) ∧
        ((st1.us = st.us ∧ st1.candidates = st.candidates ∧ st1.poo = []) ∨
          ∃ t, st1.candidates = st.candidates ++ [t] ∧ Affordable st.us t ∧
            updateUserBalance st.us t = .ok st1.us) := by
  intro fuel
  induction fuel with
  | zero => intro st st1 h; simp [addTransactionToNewBlockLoop] at h
  | succ n ih =>
    intro st st1 h
    unfold addTransactionToNewBlockLoop at h
    by_cases he : st.poo.isEmpty
    · simp only [he, if_true] at h
      cases h
      exact ⟨[], by simp, by simp, Or.inl ⟨rfl, rfl, List.isEmpty_iff.1 he⟩⟩
    · simp only [he] at h
      cases hg : st.poo[selectRandomTransaction st.poo (draws st.drawn)]? with
      | none => simp [hg] at h
      | some t =>
        cases hf : findUserByPk st.us t.sender with
        | none => simp [hg, hf] at h
        | some u =>
          by_cases hb : u.balance < t.amount
          · simp only [hg, hf, hb, if_true] at h
            obtain ⟨rej, h1, h2, h3⟩ := ih _ _ h
            refine ⟨t :: rej, by simpa using h1, ?_, h3⟩
            intro x hx
            rcases List.mem_cons.1 hx with rfl | hx
            · exact ⟨u, hf, hb⟩
            · exact h2 x hx
          · cases hu : updateUserBalance st.us t with
            | ok us1 =>
              simp only [hg, hf, hb, hu] at h
              cases h
              exact ⟨[], by simp, by simp,
                Or.inr ⟨t, rfl, ⟨u, hf, by omega⟩, hu⟩⟩
            | undefinedBehaviour => simp [hg, hf, hb, hu] at h
            | outOfFuel => simp [hg, hf, hb, hu] at h

/-! ## Counting candidates and draws -/

theorem selectionLoop_exit (cap : Nat) (draws : Nat → Nat) :
    ∀ fuel st st1, selectionLoop cap draws fuel st = .ok st1 →
      st1.poo = [] ∨ cap ≤ st1.candidates.length := by
  intro fuel
  induction fuel with
  | zero =>
    intro st st1 h
    unfold selectionLoop at h
    split at h
    · cases h
    · rename_i hc
      cases h
      by_cases hp : st.poo = []
      · exact Or.inl hp
      · right
        have hne : st.poo.isEmpty = false := by
          cases hps : st.poo with
          | nil => exact absurd hps hp
          | cons x xs => rfl
        simp [hne] at hc
        exact hc
  | succ n ih =>
    intro st st1 h
    unfold selectionLoop at h
    split at h
    · cases ha : addTransactionToNewBlock draws st with
      | ok st2 =>
        simp only [ha] at h
        exact ih _ _ h
      | undefinedBehaviour => simp [ha] at h
      | outOfFuel => simp [ha] at h
    · rename_i hc
      cases h
      by_cases hp : st.poo = []
      · exact Or.inl hp
      · right
        have hne : st.poo.isEmpty = false := by
          cases hps : st.poo with
          | nil => exact absurd hps hp
          | cons x xs => rfl
        simp [hne] at hc
        exact hc

theorem selectionLoop_cap (cap : Nat) (draws : Nat → Nat) :
    ∀ fuel st st1, selectionLoop cap draws fuel st = .ok st1 →
      st.candidates.length ≤ cap → st1.candidates.length ≤ cap := by
  intro fuel
  induction fuel with
  | zero =>
    intro st st1 h hle
    unfold selectionLoop at h
    split at h
    · cases h
    · cases h; exact hle
  | succ n ih =>
    intro st st1 h hle
    unfold selectionLoop at h
    split at h
    · rename_i hc
      have hlt : st.candidates.length < cap := by
        simp at hc
        exact hc.2
      cases ha : addTransactionToNewBlock draws st with
      | ok st2 =>
        simp only [ha] at h
        refine ih _ _ h ?_
        obtain ⟨_, _, _, h3⟩ := addTransactionToNewBlockLoop_outcome draws _ _ _ ha
        rcases h3 with ⟨_, h4, _⟩ | ⟨t, h4, _⟩
        · rw [h4]; exact hle
        · rw [h4]; simp; omega
      | undefinedBehaviour => simp [ha] at h
      | outOfFuel => simp [ha] at h
    · cases h; exact hle

theorem selectionLoop_draws (cap : Nat) (draws : Nat → Nat) (c : Nat) :
    ∀ fuel st st1, selectionLoop cap draws fuel st = .ok st1 →
      st.drawn + st.poo.length = c → st1.drawn + st1.poo.length = c := by
  apply selectionLoop_preserves
  · intro st i t u hg _ _ hP
    have hi := lt_length_of_getElem?_eq_some hg
    simp only [Selection.reject, List.length_eraseIdx_of_lt hi]
    omega
  · intro st i t u us1 hg _ _ _ hP
    have hi := lt_length_of_getElem?_eq_some hg
    simp only [Selection.accept, List.length_eraseIdx_of_lt hi]
    omega

/-! ## A selection that accepts nothing -/

theorem selectionLoop_no_candidates (cap : Nat) (draws : Nat → Nat) (us0 : List User) :
    ∀ fuel st st1, selectionLoop cap draws fuel st = .ok st1 →
      (st.candidates = [] → st.us = us0 ∧ ∀ t ∈ st.invalid, Unaffordable us0 t) →
      (st1.candidates = [] → st1.us = us0 ∧ ∀ t ∈ st1.invalid, Unaffordable us0 t) := by
  apply selectionLoop_preserves
  · intro st i t u _ hf hb hP hc
    obtain ⟨h1, h2⟩ := hP hc
    refine ⟨h1, ?_⟩
    intro x hx
    simp only [Selection.reject, List.mem_append, List.mem_singleton] at hx
    rcases hx with hx | rfl
    · exact h2 x hx
    · exact ⟨u, by rw [← h1]; exact hf, hb⟩
  · intro st i t u us1 _ _ _ _ _ hc
    simp [Selection.accept] at hc

/-! ## Selection returns when the ledger holds every party -/

theorem updateUserBalance_returns {us : List User} {t : Transaction}
    (hs : (findUserByPk us t.sender).isSome) (hr : (findUserByPk us t.address).isSome) :
    ∃ us1, updateUserBalance us t = .ok us1 := by
  unfold updateUserBalance
  cases hf : findUserByPk us t.sender with
  | none => rw [hf] at hs; cases hs
  | some s =>
    simp only
    have hr1 : (findUserByPk (setBalance t.sender (s.balance - t.amount) us) t.address).isSome :=
      findUserByPk_isSome_of_keys (setBalance_keys _ _ _) hr
    cases hf1 : findUserByPk (setBalance t.sender (s.balance - t.amount) us) t.address with
    | none => rw [hf1] at hr1; cases hr1
    | some r => exact ⟨_, rfl⟩

theorem closed_of_sublist {st st1 : Selection} (hc : st.Closed)
    (hk : st1.us.map User.publicKey = st.us.map User.publicKey)
    (hp : ∀ t ∈ st1.poo, t ∈ st.poo) : st1.Closed := by
  intro t ht
  have := hc t (hp t ht)
  exact ⟨findUserByPk_isSome_of_keys hk this.1, findUserByPk_isSome_of_keys hk this.2⟩

theorem addTransactionToNewBlockLoop_returns (draws : Nat → Nat) :
    ∀ fuel st, st.poo.length < fuel → st.Closed →
      ∃ st1, addTransactionToNewBlockLoop draws fuel st = .ok st1 ∧ st1.Closed := by
  intro fuel
  induction fuel with
  | zero => intro st h; omega
  | succ n ih =>
    intro st hlen hc
    unfold addTransactionToNewBlockLoop
    by_cases he : st.poo.isEmpty
    · simp only [he, if_true]
      exact ⟨st, rfl, hc⟩
    · simp only [he]
      have hne : st.poo ≠ [] := fun h => he (by rw [h]; rfl)
      have hpos : 0 < st.poo.length := List.length_pos.2 hne
      have hi : selectRandomTransaction st.poo (draws st.drawn) < st.poo.length :=
        Nat.mod_lt _ hpos
      have hg : st.poo[selectRandomTransaction st.poo (draws st.drawn)]? =
          some (st.poo[selectRandomTransaction st.poo (draws st.drawn)]) :=
        List.getElem?_eq_getElem hi
      generalize st.poo[selectRandomTransaction st.poo (draws st.drawn)] = t at hg
      have htm : t ∈ st.poo := mem_of_getElem?_eq_some hg
      have hlen1 : (st.poo.eraseIdx (selectRandomTransaction st.poo (draws st.drawn))).length
          = st.poo.length - 1 := List.length_eraseIdx_of_lt hi
      obtain ⟨hs, hr⟩ := hc t htm
      cases hf : findUserByPk st.us t.sender with
      | none => rw [hf] at hs; cases hs
      | some u =>
        by_cases hb : u.balance < t.amount
        · simp only [hg, hf, hb, if_true]
          refine ih _ (by simp only [hlen1]; omega) ?_
          exact closed_of_sublist hc rfl (fun x hx => List.mem_of_mem_eraseIdx hx)
        · obtain ⟨us1, hu⟩ := updateUserBalance_returns hs hr
          simp only [hg, hf, hb, if_false, hu]
          refine ⟨_, rfl, ?_⟩
          exact closed_of_sublist hc (updateUserBalance_keys hu)
            (fun x hx => List.mem_of_mem_eraseIdx hx)

theorem selectionLoop_returns (cap : Nat) (draws : Nat → Nat) :
    ∀ fuel st, st.poo.length ≤ fuel → st.Closed →
      ∃ st1, selectionLoop cap draws fuel st = .ok st1 := by
  intro fuel
  induction fuel with
  | zero =>
    intro st h _
    have hnil : st.poo = [] := List.length_eq_zero.1 (by omega)
    exact ⟨st, by simp [selectionLoop, hnil]⟩
  | succ n ih =>
    intro st h hc
    unfold selectionLoop
    split
    · rename_i hcond
      have hne : st.poo ≠ [] := by
        intro hnil
        simp [hnil] at hcond
      obtain ⟨st1, ha, hc1⟩ :=
        addTransactionToNewBlockLoop_returns draws (st.poo.length + 1) st (by omega) hc
      have hs := addTransactionToNewBlockLoop_shrinks draws (st.poo.length + 1) st (by omega)
      have hlt := (hs.2 st1 ha).2 hne
      have ha1 : addTransactionToNewBlock draws st = .ok st1 := ha
      simp only [ha1]
      exact ih st1 (by omega) hc1
    · exact ⟨st, rfl⟩

/-! ## Every invalid transaction was unaffordable when it was drawn -/

theorem selectionLoop_invalid_history (cap : Nat) (draws : Nat → Nat) (us0 : List User) :
    ∀ fuel st st1, selectionLoop cap draws fuel st = .ok st1 →
      (applyTransactions us0 st.candidates = .ok st.us ∧
        ∀ t ∈ st.invalid, ∃ pre us1, pre <+: st.candidates ∧
          applyTransactions us0 pre = .ok us1 ∧ Unaffordable us1 t) →
      (applyTransactions us0 st1.candidates = .ok st1.us ∧
        ∀ t ∈ st1.invalid, ∃ pre us1, pre <+: st1.candidates ∧
          applyTransactions us0 pre = .ok us1 ∧ Unaffordable us1 t) := by
  apply selectionLoop_preserves
  · intro st i t u _ hf hb hP
    refine ⟨hP.1, ?_⟩
    intro x hx
    simp only [Selection.reject, List.mem_append, List.mem_singleton] at hx
    rcases hx with hx | rfl
    · exact hP.2 x hx
    · exact ⟨st.candidates, st.us, List.prefix_refl _, hP.1, u, hf, hb⟩
  · intro st i t u us1 _ _ _ hu hP
    refine ⟨applyTransactions_snoc hP.1 hu, ?_⟩
    intro x hx
    obtain ⟨pre, us2, h1, h2, h3⟩ := hP.2 x hx
    exact ⟨pre, us2, h1.trans (List.prefix_append _ _), h2, h3⟩

/-! ## The candidates of an attempt come from its selection -/

theorem mineBlock_candidates {d : Defines} {s : Blockchain} {h : Nat} {flag : Bool}
    {o : Search} {a : Attempt} (hm : mineBlock d s h flag o = .ok a) :
    (a.candidates = [] ∧ a.invalidTxs = []) ∨
    ∃ sel, selectTransactions d.TRANSACTIONS_IN_BLOCK o.draws s.users s.pool = .ok sel ∧
      a.candidates = sel.candidates ∧ a.invalidTxs = sel.invalid := by
  unfold mineBlock at hm
  by_cases hu : s.users.isEmpty
  · simp only [hu, if_true] at hm
    cases hm
    exact Or.inl ⟨rfl, rfl⟩
  · by_cases hp : s.pool.isEmpty
    · simp only [hu, hp, if_true] at hm
      cases hm
      exact Or.inl ⟨rfl, rfl⟩
    · simp only [hu, hp] at hm
      cases hs : selectTransactions d.TRANSACTIONS_IN_BLOCK o.draws s.users s.pool with
      | undefinedBehaviour => simp [hs] at hm
      | outOfFuel => simp [hs] at hm
      | ok sel =>
        right
        refine ⟨sel, rfl, ?_⟩
        simp only [hs] at hm
        by_cases hc : sel.candidates = []
        · simp only [hc, List.isEmpty_nil, if_true, Bool.true_and] at hm
          cases hm
          exact ⟨hc.symm, rfl⟩
        · have hc1 : sel.candidates.isEmpty = false := by
            cases hcs : sel.candidates with
            | nil => exact absurd hcs hc
            | cons x xs => rfl
          simp only [hc1, Bool.false_and] at hm
          unfold mineAndCommit at hm
          by_cases hcan : flagAfterSearch flag o = true
          · simp only [hcan, if_true] at hm
            cases hm
            exact ⟨rfl, rfl⟩
          · have hcanf : flagAfterSearch flag o = false := by simpa using hcan
            by_cases hok : o.hashOk = true
            · simp only [hcanf, hok] at hm
              cases hcs : commitSection s false h (minedBlock d s.blockchain sel.candidates o)
                  sel.invalid with
              | undefinedBehaviour => simp [hcs] at hm
              | outOfFuel => simp [hcs] at hm
              | ok r =>
                obtain ⟨s1, f1, e⟩ := r
                simp [hcs] at hm
                subst hm
                exact ⟨rfl, rfl⟩
            · simp [hcanf, hok] at hm
              subst hm
              exact ⟨rfl, rfl⟩

/-! ## Pruning transactions that are in the pool -/

theorem removeTransactions_returns {txs : List Transaction} :
    ∀ {pool : List Transaction}, (txs.map Transaction.id).Nodup →
      (∀ t ∈ txs, t.id ∈ pool.map Transaction.id) →
      ∃ p, removeTransactions pool txs = .ok p := by
  induction txs with
  | nil => intro pool _ _; exact ⟨pool, rfl⟩
  | cons t txs ih =>
    intro pool hnd hsub
    simp only [List.map_cons, List.nodup_cons] at hnd
    have ht : t.id ∈ pool.map Transaction.id := hsub t (List.mem_cons_self _ _)
    have hany : pool.any (fun tr => tr.id == t.id) = true := by
      obtain ⟨y, hy, hyid⟩ := List.mem_map.1 ht
      exact List.any_eq_true.2 ⟨y, hy, by simp [hyid]⟩
    unfold removeTransactions
    simp only [hany, if_true]
    refine ih hnd.2 ?_
    intro x hx
    obtain ⟨y, hy, hyid⟩ := List.mem_map.1 (hsub x (List.mem_cons_of_mem _ hx))
    have hne : ¬ ((fun tr : Transaction => tr.id == t.id) y = true) := by
      intro hb
      have hyt : y.id = t.id := by simpa using hb
      exact hnd.1 (by rw [← hyt, hyid]; exact List.mem_map_of_mem _ hx)
    have hmem : y ∈ pool.eraseP (fun tr => tr.id == t.id) := by
      rw [List.mem_eraseP_of_neg]
      · exact hy
      · exact hne
    exact List.mem_map.2 ⟨y, hmem, hyid⟩

theorem removeTransactions_append_inv {a b : List Transaction} :
    ∀ {pool p : List Transaction}, removeTransactions pool (a ++ b) = .ok p →
      ∃ p1, removeTransactions pool a = .ok p1 ∧ removeTransactions p1 b = .ok p := by
  induction a with
  | nil => intro pool p h; exact ⟨pool, rfl, by simpa using h⟩
  | cons t a ih =>
    intro pool p h
    simp only [List.cons_append] at h
    unfold removeTransactions at h
    split at h
    · rename_i hany
      obtain ⟨p1, h1, h2⟩ := ih h
      refine ⟨p1, ?_, h2⟩
      unfold removeTransactions
      simp only [hany, if_true]
      exact h1
    · cases h

theorem selection_ids_nodup {us0 : List User} {pool0 : List Transaction} {sel : Selection}
    (htr : sel.Tracks us0 pool0) (hnd : (pool0.map Transaction.id).Nodup) :
    ((sel.candidates ++ sel.invalid).map Transaction.id).Nodup ∧
    ∀ t ∈ sel.candidates ++ sel.invalid, t.id ∈ pool0.map Transaction.id := by
  have hperm : ((sel.candidates ++ sel.invalid ++ sel.poo).map Transaction.id).Perm
      (pool0.map Transaction.id) := htr.1.map _
  have hall := hperm.nodup_iff.2 hnd
  rw [List.map_append] at hall
  refine ⟨hall.of_append_left, ?_⟩
  intro t ht
  exact hperm.subset (List.mem_map_of_mem _ (List.mem_append_left _ ht))

theorem commitSection_returns (s : Blockchain) (flag : Bool) (h : Nat) (block : Block)
    (invalidTxs : List Transaction) {users1 : List User} {pool1 pool2 : List Transaction}
    (ha : applyTransactions s.users block.transactions = .ok users1)
    (hr : removeTransactions s.pool block.transactions = .ok pool1)
    (hi : removeTransactions pool1 invalidTxs = .ok pool2) :
    ∃ r, commitSection s flag h block invalidTxs = .ok r := by
  unfold commitSection
  by_cases hh : s.blockchain.length = h
  · simp only [hh, if_true, ha, hr]
    rw [removeTransactions_guarded, hi]
    exact ⟨_, rfl⟩
  · simp only [hh, if_false]
    exact ⟨_, rfl⟩

/-! ## Funds are conserved -/

theorem totalBalance_setBalance {us : List User} {pk : Nat} {u : User} (b : Int) :
    findUserByPk us pk = some u →
      totalBalance (setBalance pk b us) = totalBalance us - u.balance + b := by
  induction us with
  | nil => intro h; simp [findUserByPk] at h
  | cons v us ih =>
    intro h
    rw [findUserByPk_cons] at h
    by_cases hv : v.publicKey = pk
    · simp only [hv, if_true, Option.some.injEq] at h
      subst h
      simp only [setBalance, hv, if_true, totalBalance, List.map_cons, List.sum_cons]
      omega
    · simp only [hv, if_false] at h
      have := ih h
      simp only [setBalance, hv, if_false, totalBalance, List.map_cons, List.sum_cons] at this ⊢
      omega

theorem updateUserBalance_total {us us1 : List User} {t : Transaction}
    (h : updateUserBalance us t = .ok us1) : totalBalance us1 = totalBalance us := by
  unfold updateUserBalance at h
  cases hs : findUserByPk us t.sender with
  | none => simp [hs] at h
  | some s =>
    simp only [hs] at h
    cases hr : findUserByPk (setBalance t.sender (s.balance - t.amount) us) t.address with
    | none => simp [hr] at h
    | some r =>
      simp only [hr] at h
      cases h
      rw [totalBalance_setBalance _ hr, totalBalance_setBalance _ hs]
      omega

theorem applyTransactions_total {ts : List Transaction} :
    ∀ {us us1 : List User}, applyTransactions us ts = .ok us1 →
      totalBalance us1 = totalBalance us := by
  induction ts with
  | nil => intro us us1 h; cases h; rfl
  | cons t ts ih =>
    intro us us1 h
    unfold applyTransactions at h
    cases hu : updateUserBalance us t with
    | ok us2 =>
      simp only [hu] at h
      rw [ih h, updateUserBalance_total hu]
    | undefinedBehaviour => simp [hu] at h
    | outOfFuel => simp [hu] at h

/-! ## The names `user0`, `user1`, ... are pairwise different -/

theorem toDigitsCore_append (fuel : Nat) :
    ∀ (n : Nat) (ds : List Char),
      Nat.toDigitsCore 10 fuel n ds = Nat.toDigitsCore 10 fuel n [] ++ ds := by
  induction fuel with
  | zero => intro n ds; simp [Nat.toDigitsCore]
  | succ f ih =>
    intro n ds
    simp only [Nat.toDigitsCore]
    by_cases h0 : n / 10 = 0
    · simp [h0]
    · simp only [h0, if_false]
      rw [ih (n / 10) (Nat.digitChar (n % 10) :: ds), ih (n / 10) [Nat.digitChar (n % 10)]]
      simp

theorem digitChar_value (d : Nat) (h : d < 10) : (Nat.digitChar d).toNat - 48 = d := by
  interval_cases d <;> rfl

theorem digitsValue_snoc (cs : List Char) (c : Char) :
    digitsValue (cs ++ [c]) = 10 * digitsValue cs + (c.toNat - 48) := by
  simp [digitsValue, List.foldl_append]

theorem digitsValue_toDigitsCore (fuel : Nat) :
    ∀ n, n < fuel → digitsValue (Nat.toDigitsCore 10 fuel n []) = n := by
  induction fuel with
  | zero => intro n h; omega
  | succ f ih =>
    intro n h
    simp only [Nat.toDigitsCore]
    by_cases h0 : n / 10 = 0
    · simp only [h0, if_true]
      have hlt : n < 10 := by omega
      have := digitsValue_snoc [] (Nat.digitChar (n % 10))
      simp only [List.nil_append] at this
      rw [this, digitChar_value _ (Nat.mod_lt _ (by decide))]
      simp [digitsValue]
      omega
    · simp only [h0, if_false]
      rw [toDigitsCore_append, digitsValue_snoc, ih (n / 10) (by omega),
        digitChar_value _ (Nat.mod_lt _ (by decide))]
      omega

theorem toString_nat_injective {a b : Nat} (h : toString a = toString b) : a = b := by
  have h1 : (Nat.toDigits 10 a).asString = (Nat.toDigits 10 b).asString := h
  have h2 : Nat.toDigits 10 a = Nat.toDigits 10 b := by
    have := congrArg String.data h1
    simpa using this
  have ha := digitsValue_toDigitsCore (a + 1) a (by omega)
  have hb := digitsValue_toDigitsCore (b + 1) b (by omega)
  unfold Nat.toDigits at h2
  rw [h2] at ha
  omega

theorem userName_injective {a b : Nat}
    (h : "user" ++ toString a = "user" ++ toString b) : a = b := by
  have := congrArg String.data h
  simp only [String.data_append] at this
  exact toString_nat_injective (String.ext (List.append_cancel_left this))

/-! ## Looking users up by name -/

theorem find_named_from (l : List User) :
    ∀ (off : Nat),
      (∀ j (h : j < l.length), (l.get ⟨j, h⟩).name = "user" ++ toString (off + j)) →
      ∀ i (h : i < l.length),
        l.find? (fun u => u.name == "user" ++ toString (off + i)) = some (l.get ⟨i, h⟩) := by
  induction l with
  | nil => intro off _ i h; simp at h
  | cons u l ih =>
    intro off hn i h
    cases i with
    | zero =>
      have h0 := hn 0 (by simp)
      simp only [List.get_eq_getElem, List.getElem_cons_zero, Nat.add_zero] at h0
      simp [List.find?_cons, h0]
    | succ i =>
      have h0 := hn 0 (by simp)
      simp only [List.get_eq_getElem, List.getElem_cons_zero, Nat.add_zero] at h0
      have hne : (u.name == "user" ++ toString (off + (i + 1))) = false := by
        rw [h0]
        simp only [beq_eq_false_iff_ne, ne_eq]
        intro he
        have := userName_injective he
        omega
      have hlt : i < l.length := by simpa using h
      have htail : ∀ j (hj : j < l.length),
          (l.get ⟨j, hj⟩).name = "user" ++ toString (off + 1 + j) := by
        intro j hj
        have := hn (j + 1) (by simp; omega)
        simp only [List.get_eq_getElem, List.getElem_cons_succ] at this
        simp only [List.get_eq_getElem]
        rw [this]
        congr 2
        omega
      have := ih (off + 1) htail i hlt
      have hidx : off + 1 + i = off + (i + 1) := by omega
      rw [hidx] at this
      simp only [List.find?_cons, hne, List.get_eq_getElem, List.getElem_cons_succ]
      simpa using this

theorem findUserByUsername_named {users : List User} (hn : NamedInOrder users) (i : Nat)
    (h : i < users.length) :
    findUserByUsername users ("user" ++ toString i) = some (users.get ⟨i, h⟩) := by
  have := find_named_from users 0 (by simpa [NamedInOrder] using hn) i h
  simpa [findUserByUsername] using this

/-! ## What `generateTransactions` appends -/

theorem generateRandomNumber_index (n d : Nat) (hn : 1 ≤ n) :
    generateRandomNumber 0 ((n : Int) - 1) d = some ((d % n : Nat) : Int) := by
  unfold generateRandomNumber
  have h1 : (0 : Int) ≤ (n : Int) - 1 := by omega
  have h2 : ((n : Int) - 1 - 0 + 1).toNat = n := by omega
  simp only [h1, if_true, h2, zero_add]

theorem generateRandomNumber_range {lo hi x : Int} {d : Nat}
    (h : generateRandomNumber lo hi d = some x) : lo ≤ x ∧ x ≤ hi := by
  unfold generateRandomNumber at h
  split at h
  · rename_i hle
    cases h
    have hpos : 0 < (hi - lo + 1).toNat := by omega
    have := Nat.mod_lt d hpos
    omega
  · cases h

theorem drawOther_spec (rand : Nat → Nat) (n : Nat) (hn : 1 ≤ n) (num1 : Int) :
    ∀ fuel k num2 k1, drawOther rand n num1 fuel k = .ok (num2, k1) →
      num2 ≠ num1 ∧ ∃ b, b < n ∧ num2 = ((b : Nat) : Int) := by
  intro fuel
  induction fuel with
  | zero => intro k num2 k1 h; simp [drawOther] at h
  | succ f ih =>
    intro k num2 k1 h
    unfold drawOther at h
    rw [generateRandomNumber_index n _ hn] at h
    simp only at h
    split at h
    · exact ih _ _ _ h
    · rename_i hne
      simp only [Res.ok.injEq, Prod.mk.injEq] at h
      obtain ⟨h1, _⟩ := h
      subst h1
      exact ⟨hne, rand k % n, Nat.mod_lt _ (by omega), rfl⟩

theorem drawOther_exact (rand : Nat → Nat) (n : Nat) (hn : 1 ≤ n) (num1 : Int) :
    ∀ j fuel k, (∀ i, i < j → ((rand (k + i) % n : Nat) : Int) = num1) →
      ((rand (k + j) % n : Nat) : Int) ≠ num1 → j < fuel →
      drawOther rand n num1 fuel k = .ok (((rand (k + j) % n : Nat) : Int), k + j + 1) := by
  intro j
  induction j with
  | zero =>
    intro fuel k _ hne hlt
    cases fuel with
    | zero => omega
    | succ f =>
      unfold drawOther
      rw [generateRandomNumber_index n _ hn]
      dsimp only
      rw [if_neg (by simpa using hne)]
      rfl
  | succ j ih =>
    intro fuel k heq hne hlt
    cases fuel with
    | zero => omega
    | succ f =>
      unfold drawOther
      rw [generateRandomNumber_index n _ hn]
      dsimp only
      have h0 := heq 0 (by omega)
      rw [if_pos (by simpa using h0)]
      have hk : k + (j + 1) = k + 1 + j := by omega
      rw [hk] at hne ⊢
      have := ih f (k + 1)
        (fun i hi => by
          have := heq (i + 1) (by omega)
          have hki : k + (i + 1) = k + 1 + i := by omega
          rw [hki] at this
          exact this)
        hne (by omega)
      rw [this]

theorem drawOther_ok (rand : Nat → Nat) (n : Nat) (hn : 1 ≤ n) (num1 : Int) :
    ∀ fuel k r, drawOther rand n num1 fuel k = .ok r →
      ∃ j, (∀ i, i < j → ((rand (k + i) % n : Nat) : Int) = num1) ∧
        ((rand (k + j) % n : Nat) : Int) ≠ num1 ∧
        r = (((rand (k + j) % n : Nat) : Int), k + j + 1) := by
  intro fuel
  induction fuel with
  | zero => intro k r h; simp [drawOther] at h
  | succ f ih =>
    intro k r h
    unfold drawOther at h
    rw [generateRandomNumber_index n _ hn] at h
    dsimp only at h
    by_cases heq : ((rand k % n : Nat) : Int) = num1
    · rw [if_pos heq] at h
      obtain ⟨j, h1, h2, h3⟩ := ih (k + 1) r h
      have hk : k + 1 + j = k + (j + 1) := by omega
      rw [hk] at h2 h3
      refine ⟨j + 1, ?_, h2, h3⟩
      intro i hi
      cases i with
      | zero => simpa using heq
      | succ i =>
        have := h1 i (by omega)
        have hki : k + 1 + i = k + (i + 1) := by omega
        rw [hki] at this
        exact this
    · rw [if_neg heq] at h
      refine ⟨0, fun i hi => by omega, by simpa using heq, ?_⟩
      simp only [Res.ok.injEq] at h
      rw [← h]
      rfl

theorem drawOther_ne_undefined (rand : Nat → Nat) (n : Nat) (hn : 1 ≤ n) (num1 : Int) :
    ∀ fuel k, drawOther rand n num1 fuel k ≠ .undefinedBehaviour := by
  intro fuel
  induction fuel with
  | zero => intro k; simp [drawOther]
  | succ f ih =>
    intro k
    unfold drawOther
    rw [generateRandomNumber_index n _ hn]
    dsimp only
    split
    · exact ih (k + 1)
    · simp

theorem findUserByUsername_int {users : List User} (hn : NamedInOrder users) (i : Nat)
    (h : i < users.length) :
    findUserByUsername users ("user" ++ toString ((i : Nat) : Int)) =
      some (users.get ⟨i, h⟩) :=
  findUserByUsername_named hn i h

theorem generateLoop_generated (g : Generator) (users : List User) (lo hi : Int) (fuel : Nat)
    (hn : 1 ≤ users.length) (hnamed : NamedInOrder users) :
    ∀ (count i k : Nat) (pool pool1 : List Transaction),
      generateLoop g users lo hi fuel count i k pool = .ok pool1 →
      ∃ new, pool1 = pool ++ new ∧ new.length = count ∧
        ∀ t ∈ new, lo ≤ t.amount ∧ t.amount ≤ hi ∧
          ∃ (a b : Nat) (u v : User), a ≠ b ∧ users[a]? = some u ∧ users[b]? = some v ∧
            t.sender = u.publicKey ∧ t.address = v.publicKey := by
  intro count
  induction count with
  | zero => intro i k pool pool1 h; cases h; exact ⟨[], by simp, rfl, by simp⟩
  | succ c ih =>
    intro i k pool pool1 h
    unfold generateLoop at h
    rw [generateRandomNumber_index users.length _ hn] at h
    have ha : g.rand k % users.length < users.length := Nat.mod_lt _ (by omega)
    dsimp only at h
    rw [findUserByUsername_int hnamed _ ha] at h
    dsimp only at h
    cases hd : drawOther g.rand users.length ((g.rand k % users.length : Nat) : Int) fuel
        (k + 1) with
    | undefinedBehaviour => rw [hd] at h; cases h
    | outOfFuel => rw [hd] at h; cases h
    | ok r =>
      obtain ⟨num2, k1⟩ := r
      obtain ⟨hne, b, hb, hnum2⟩ := drawOther_spec g.rand users.length hn _ _ _ _ _ hd
      subst hnum2
      rw [hd] at h
      dsimp only at h
      rw [findUserByUsername_int hnamed _ hb] at h
      dsimp only at h
      cases hamt : generateRandomNumber lo hi (g.rand k1) with
      | none => rw [hamt] at h; cases h
      | some amt =>
        rw [hamt] at h
        dsimp only at h
        obtain ⟨new, h1, h2, h3⟩ := ih _ _ _ _ h
        refine ⟨{ id := g.newId i,
                  sender := (users.get ⟨g.rand k % users.length, ha⟩).publicKey,
                  address := (users.get ⟨b, hb⟩).publicKey, amount := amt } :: new,
          by rw [h1]; simp, by simp [h2], ?_⟩
        intro t ht
        rcases List.mem_cons.1 ht with rfl | ht
        · obtain ⟨hlo, hhi⟩ := generateRandomNumber_range hamt
          refine ⟨hlo, hhi, g.rand k % users.length, b, users.get ⟨_, ha⟩, users.get ⟨b, hb⟩,
            ?_, ?_, ?_, rfl, rfl⟩
          · intro he
            exact hne (by rw [he])
          · simp [List.getElem?_eq_getElem ha]
          · simp [List.getElem?_eq_getElem hb]
        · exact h3 t ht

theorem redrawEndsAt_cast {rand : Nat → Nat} {n k j : Nat} :
    RedrawEndsAt rand n k j ↔
      ((∀ i, i < j → ((rand (k + 1 + i) % n : Nat) : Int) = ((rand k % n : Nat) : Int)) ∧
        ((rand (k + 1 + j) % n : Nat) : Int) ≠ ((rand k % n : Nat) : Int)) := by
  unfold RedrawEndsAt
  constructor
  · rintro ⟨h1, h2⟩
    exact ⟨fun i hi => by rw [h2 i hi], fun he => h1 (by exact_mod_cast he)⟩
  · rintro ⟨h1, h2⟩
    exact ⟨fun he => h2 (by rw [he]), fun i hi => by exact_mod_cast h1 i hi⟩

theorem generateLoop_redrawsEnd (g : Generator) (users : List User) (lo hi : Int)
    (fuel : Nat) (hn : 1 ≤ users.length) :
    ∀ (count i k : Nat) (pool pool1 : List Transaction),
      generateLoop g users lo hi fuel count i k pool = .ok pool1 →
      RedrawsEnd g.rand users.length count k := by
  intro count
  induction count with
  | zero => intro i k pool pool1 _; exact trivial
  | succ c ih =>
    intro i k pool pool1 h
    unfold generateLoop at h
    rw [generateRandomNumber_index users.length _ hn] at h
    dsimp only at h
    cases hf : findUserByUsername users
        ("user" ++ toString ((g.rand k % users.length : Nat) : Int)) with
    | none => rw [hf] at h; cases h
    | some sender =>
      rw [hf] at h
      dsimp only at h
      cases hd : drawOther g.rand users.length ((g.rand k % users.length : Nat) : Int) fuel
          (k + 1) with
      | undefinedBehaviour => rw [hd] at h; cases h
      | outOfFuel => rw [hd] at h; cases h
      | ok r =>
        obtain ⟨j, h1, h2, h3⟩ := drawOther_ok g.rand users.length hn _ _ _ _ hd
        subst h3
        rw [hd] at h
        dsimp only at h
        cases hf2 : findUserByUsername users
            ("user" ++ toString ((g.rand (k + 1 + j) % users.length : Nat) : Int)) with
        | none => rw [hf2] at h; cases h
        | some address =>
          rw [hf2] at h
          dsimp only at h
          cases hamt : generateRandomNumber lo hi (g.rand (k + 1 + j + 1)) with
          | none => rw [hamt] at h; cases h
          | some amt =>
            rw [hamt] at h
            dsimp only at h
            have hrest := ih _ _ _ _ h
            have hk : k + 1 + j + 1 + 1 = k + j + 3 := by omega
            rw [hk] at hrest
            exact ⟨j, redrawEndsAt_cast.2 ⟨h1, h2⟩, hrest⟩

theorem generateLoop_ne_undefined (g : Generator) (users : List User) (lo hi : Int)
    (fuel : Nat) (hn : 1 ≤ users.length) (hnamed : NamedInOrder users) (hlohi : lo ≤ hi) :
    ∀ (count i k : Nat) (pool : List Transaction),
      generateLoop g users lo hi fuel count i k pool ≠ .undefinedBehaviour := by
  intro count
  induction count with
  | zero => intro i k pool; simp [generateLoop]
  | succ c ih =>
    intro i k pool
    unfold generateLoop
    rw [generateRandomNumber_index users.length _ hn]
    have ha : g.rand k % users.length < users.length := Nat.mod_lt _ (by omega)
    dsimp only
    rw [findUserByUsername_int hnamed _ ha]
    dsimp only
    cases hd : drawOther g.rand users.length ((g.rand k % users.length : Nat) : Int) fuel
        (k + 1) with
    | undefinedBehaviour => exact absurd hd (drawOther_ne_undefined _ _ hn _ _ _)
    | outOfFuel => simp
    | ok r =>
      obtain ⟨num2, k1⟩ := r
      obtain ⟨_, b, hb, hnum2⟩ := drawOther_spec g.rand users.length hn _ _ _ _ _ hd
      subst hnum2
      dsimp only
      rw [findUserByUsername_int hnamed _ hb]
      dsimp only
      have hamt : generateRandomNumber lo hi (g.rand k1) =
          some (lo + ((g.rand k1 % (hi - lo + 1).toNat : Nat) : Int)) := by
        simp [generateRandomNumber, hlohi]
      rw [hamt]
      exact ih _ _ _

theorem generateLoop_returns (g : Generator) (users : List User) (lo hi : Int)
    (hn : 1 ≤ users.length) (hnamed : NamedInOrder users) (hlohi : lo ≤ hi) :
    ∀ (count k : Nat), RedrawsEnd g.rand users.length count k →
      ∃ fuel0, ∀ (i : Nat) (pool : List Transaction), ∃ pool1, ∀ fuel, fuel0 ≤ fuel →
        generateLoop g users lo hi fuel count i k pool = .ok pool1 := by
  intro count
  induction count with
  | zero => intro k _; exact ⟨0, fun i pool => ⟨pool, fun fuel _ => rfl⟩⟩
  | succ c ih =>
    intro k hre
    obtain ⟨j, hj, hrest⟩ := hre
    obtain ⟨h1, h2⟩ := redrawEndsAt_cast.1 hj
    obtain ⟨fuel1, hfuel1⟩ := ih (k + j + 3) hrest
    refine ⟨max (j + 1) fuel1, ?_⟩
    intro i pool
    have ha : g.rand k % users.length < users.length := Nat.mod_lt _ (by omega)
    have hb : g.rand (k + 1 + j) % users.length < users.length := Nat.mod_lt _ (by omega)
    obtain ⟨pool1, hpool1⟩ := hfuel1 (i + 1)
      (pool ++ [{ id := g.newId i, sender := (users.get ⟨_, ha⟩).publicKey,
                  address := (users.get ⟨_, hb⟩).publicKey,
                  amount := lo + ((g.rand (k + 1 + j + 1) % (hi - lo + 1).toNat : Nat) : Int) }])
    refine ⟨pool1, ?_⟩
    intro fuel hfuel
    have hd := drawOther_exact g.rand users.length hn ((g.rand k % users.length : Nat) : Int)
      j fuel (k + 1) h1 h2 (by omega)
    have hamt : generateRandomNumber lo hi (g.rand (k + 1 + j + 1)) =
        some (lo + ((g.rand (k + 1 + j + 1) % (hi - lo + 1).toNat : Nat) : Int)) := by
      simp [generateRandomNumber, hlohi]
    unfold generateLoop
    rw [generateRandomNumber_index users.length _ hn]
    dsimp only
    rw [findUserByUsername_int hnamed _ ha]
    dsimp only
    rw [hd]
    dsimp only
    rw [findUserByUsername_int hnamed _ hb]
    dsimp only
    rw [hamt]
    dsimp only
    have hk : k + 1 + j + 1 + 1 = k + j + 3 := by omega
    rw [hk]
    exact hpool1 fuel (by omega)

theorem namedInOrder_sample : NamedInOrder [userA, userB] := by
  intro i h
  have h2 : i < 2 := h
  interval_cases i <;> rfl

theorem drawOther_stuck : ∀ fuel k, drawOther (fun _ => 0) 2 0 fuel k = .outOfFuel := by
  intro fuel
  induction fuel with
  | zero => intro k; rfl
  | succ f ih =>
    intro k
    unfold drawOther
    have h0 : generateRandomNumber 0 (((2 : Nat) : Int) - 1) 0 = some 0 := by decide
    rw [h0]
    simp only [if_true]
    exact ih (k + 1)

/-! # The claims -/

/-! ## C1: no negative balance -/

/-- C1, as stated, fails: `generateTransactions(1, -5, -5)` puts a transfer of amount -5
into the pool; the sender (balance 100) can afford it, it is mined and committed, and the
recipient, who had 0, ends with balance -5. -/
theorem generated_negative_amount_overdraws :
    ((∀ u ∈ [userA, userB], 0 ≤ u.balance) ∧
      ∀ t ∈ ([] : List Transaction), 0 < t.amount) ∧
    runCalls sampleDefines (Blockchain.mk [userA, userB] [] [])
        [Call.generate 1 (-5) (-5) countingGenerator 5, Call.mine 0 false quietSearch] =
      .ok (Blockchain.mk [{ userA with balance := 105 }, { userB with balance := -5 }] []
        [minedBlock sampleDefines []
          [{ id := 100, sender := 1, address := 2, amount := -5 }] quietSearch]) ∧
    ¬ ∀ u ∈ [{ userA with balance := 105 }, { userB with balance := -5 }],
        0 ≤ u.balance := by
  decide

/-- C1, amended: from a state in which every balance is non-negative and every pool
transaction has a positive amount and a sender and a recipient in the ledger, after any
sequence of `generateTransactions` calls with `min ≥ 0` and of sequentially executed
`mineBlock` attempts, whatever the draws, the search and the hash check give, every
balance of the authoritative ledger is non-negative. -/
theorem balances_never_negative (d : Defines) (s s1 : Blockchain) (calls : List Call)
    (hbal : ∀ u ∈ s.users, 0 ≤ u.balance)
    (hpool : ∀ t ∈ s.pool, 0 < t.amount ∧ (findUserByPk s.users t.sender).isSome ∧
      (findUserByPk s.users t.address).isSome)
    (hcalls : ∀ c ∈ calls, c.NonNegative)
    (hrun : runCalls d s calls = .ok s1) :
    ∀ u ∈ s1.users, 0 ≤ u.balance :=
  (runCalls_sound d calls s s1
    ⟨hbal, fun t ht => ⟨le_of_lt (hpool t ht).1, (hpool t ht).2⟩⟩ hcalls hrun).1

theorem balances_never_negative_witness :
    runCalls sampleDefines (Blockchain.mk [userA, userB] [txAB30] [])
        [Call.generate 1 1 50 countingGenerator 5, Call.mine 0 false quietSearch] =
      .ok (Blockchain.mk [{ userA with balance := 67 }, { userB with balance := 33 }] []
        [minedBlock sampleDefines []
          [txAB30, { id := 100, sender := 1, address := 2, amount := 3 }] quietSearch]) ∧
    ∀ u ∈ [{ userA with balance := 67 }, { userB with balance := 33 }], 0 ≤ u.balance :=
  ⟨by decide,
   balances_never_negative sampleDefines (Blockchain.mk [userA, userB] [txAB30] [])
     (Blockchain.mk [{ userA with balance := 67 }, { userB with balance := 33 }] []
        [minedBlock sampleDefines []
          [txAB30, { id := 100, sender := 1, address := 2, amount := 3 }] quietSearch])
     [Call.generate 1 1 50 countingGenerator 5, Call.mine 0 false quietSearch]
     (by decide) (by decide)
     (by intro c hc
         simp only [List.mem_cons, List.mem_singleton, List.not_mem_nil, or_false] at hc
         rcases hc with rfl | rfl
         · show (0 : Int) ≤ 1
           decide
         · trivial)
     (by decide)⟩

/-! ## C2: at most one commit per height -/

/-- C2: with the commit section as one atomic step, on a chain of length `h` and for
`N ≥ 1` steps that all carry `initialBlockchainSize = h`, the first step (when it runs
without undefined behaviour) appends its block, the chain ends with length `h + 1`, the
run of all `N` steps ends in the state the first step left, with one `committed` followed
by `N - 1` times `lostRace`, and each later step leaves the chain, the ledger, the pool and
the flag as they are. -/
theorem commit_at_most_once (s : Blockchain) (flag : Bool) (h : Nat) (c : CommitStep)
    (cs : List CommitStep) (hlen : s.blockchain.length = h)
    (hall : ∀ x ∈ c :: cs, x.initialBlockchainSize = h)
    (s1 : Blockchain) (f1 : Bool) (e1 : Exit)
    (hfirst : commitSection s flag c.initialBlockchainSize c.block c.invalidTxs =
      .ok (s1, f1, e1)) :
    e1 = Exit.committed ∧ f1 = true ∧
    s1.blockchain = s.blockchain ++ [c.block] ∧ s1.blockchain.length = h + 1 ∧
    runCommitSteps s flag (c :: cs) =
      .ok (s1, true, Exit.committed :: List.replicate cs.length Exit.lostRace) ∧
    ∀ x ∈ cs, commitSection s1 true x.initialBlockchainSize x.block x.invalidTxs =
      .ok (s1, true, Exit.lostRace) := by
  have hc : c.initialBlockchainSize = h := hall c (List.mem_cons_self _ _)
  rcases commitSection_ok hfirst with ⟨hne, _⟩ | ⟨_, h2, h3, u1, p1, p2, _, _, _, h8⟩
  · exact absurd (hlen.trans hc.symm) hne
  · subst h2 h3
    have hchain : s1.blockchain = s.blockchain ++ [c.block] := by rw [h8]
    have hl : s1.blockchain.length = h + 1 := by rw [hchain]; simp [hlen]
    have hlost : ∀ x ∈ cs, s1.blockchain.length ≠ x.initialBlockchainSize := by
      intro x hx
      rw [hl, hall x (List.mem_cons_of_mem _ hx)]
      omega
    refine ⟨rfl, rfl, hchain, hl, ?_, fun x hx => commitSection_lost (hlost x hx)⟩
    simp [runCommitSteps, hfirst, runCommitSteps_all_lost cs hlost]

theorem commit_at_most_once_witness :
    runCommitSteps (Blockchain.mk [userA, userB] [txAB30] []) false
        [CommitStep.mk 0 (minedBlock sampleDefines [] [txAB30] quietSearch) [],
         CommitStep.mk 0 (minedBlock sampleDefines [] [txAB30] cancelledSearch) []] =
      .ok (Blockchain.mk [{ userA with balance := 70 }, { userB with balance := 30 }] []
            [minedBlock sampleDefines [] [txAB30] quietSearch],
           true, [Exit.committed, Exit.lostRace]) :=
  (commit_at_most_once (Blockchain.mk [userA, userB] [txAB30] []) false 0
    (CommitStep.mk 0 (minedBlock sampleDefines [] [txAB30] quietSearch) [])
    [CommitStep.mk 0 (minedBlock sampleDefines [] [txAB30] cancelledSearch) []]
    rfl (by decide)
    (Blockchain.mk [{ userA with balance := 70 }, { userB with balance := 30 }] []
      [minedBlock sampleDefines [] [txAB30] quietSearch])
    true Exit.committed (by decide)).2.2.2.2.1

/-! ## C3: the pool after a commit -/

/-- C3, as stated, fails: when two pool transactions carry one id and the block holds one
of them, `removeTransactions` erases only the first pool element with that id, and the
other one stays in the pool after the commit. -/
theorem mineBlock_commit_leaves_same_id :
    mineBlock singleDefines (Blockchain.mk [userA, userB] [txAB30, txAB10] []) 0 false
        quietSearch =
      .ok { chain := Blockchain.mk [{ userA with balance := 70 }, { userB with balance := 30 }]
                       [txAB10] [minedBlock singleDefines [] [txAB30] quietSearch],
            finishedMining := true, exit := Exit.committed,
            candidates := [txAB30], invalidTxs := [] } ∧
    txAB10.id = txAB30.id := by
  decide

/-- C3, amended: when the ids of the pool are pairwise distinct, after an attempt that
commits the pool is the old pool without the transactions whose id is the id of a
candidate or of an invalid transaction of the attempt: none of those remains, and every
other pending transaction is still there, once and in the same relative order. The same
holds of the commit section alone, on whatever pool it finds. -/
theorem mineBlock_commit_prunes (d : Defines) (s : Blockchain) (h : Nat) (flag : Bool)
    (o : Search) (a : Attempt) (hm : mineBlock d s h flag o = .ok a)
    (he : a.exit = Exit.committed) (hnd : (s.pool.map Transaction.id).Nodup) :
    a.chain.pool = s.pool.filter
      (fun t => decide (t.id ∉ (a.candidates ++ a.invalidTxs).map Transaction.id)) ∧
    (∀ t ∈ a.chain.pool, ∀ r ∈ a.candidates ++ a.invalidTxs, t.id ≠ r.id) ∧
    (∀ t ∈ s.pool, (∀ r ∈ a.candidates ++ a.invalidTxs, t.id ≠ r.id) → t ∈ a.chain.pool) ∧
    a.chain.pool.Sublist s.pool ∧ (a.chain.pool.map Transaction.id).Nodup ∧
    ∀ (s0 s1 : Blockchain) (f f1 : Bool) (h0 : Nat) (block : Block)
      (invalidTxs : List Transaction),
      commitSection s0 f h0 block invalidTxs = .ok (s1, f1, Exit.committed) →
      (s0.pool.map Transaction.id).Nodup →
      s1.pool = s0.pool.filter
        (fun t => decide (t.id ∉ (block.transactions ++ invalidTxs).map Transaction.id)) := by
  have hgen : ∀ (s0 s1 : Blockchain) (f f1 : Bool) (h0 : Nat) (block : Block)
      (invalidTxs : List Transaction),
      commitSection s0 f h0 block invalidTxs = .ok (s1, f1, Exit.committed) →
      (s0.pool.map Transaction.id).Nodup →
      s1.pool = s0.pool.filter
        (fun t => decide (t.id ∉ (block.transactions ++ invalidTxs).map Transaction.id)) := by
    intro s0 s1 f f1 h0 block invalidTxs hc hnd0
    rcases commitSection_ok hc with ⟨_, _, _, h4⟩ | ⟨_, _, _, u1, p1, p2, _, h6, h7, h8⟩
    · cases h4
    · rw [h8]
      exact removeTransactions_eq_filter hnd0 (removeTransactions_append h6 h7)
  suffices hmain : a.chain.pool = s.pool.filter
      (fun t => decide (t.id ∉ (a.candidates ++ a.invalidTxs).map Transaction.id)) ∧
      (∀ t ∈ a.chain.pool, ∀ r ∈ a.candidates ++ a.invalidTxs, t.id ≠ r.id) ∧
      (∀ t ∈ s.pool, (∀ r ∈ a.candidates ++ a.invalidTxs, t.id ≠ r.id) → t ∈ a.chain.pool) ∧
      a.chain.pool.Sublist s.pool ∧ (a.chain.pool.map Transaction.id).Nodup from
    ⟨hmain.1, hmain.2.1, hmain.2.2.1, hmain.2.2.2.1, hmain.2.2.2.2, hgen⟩
  rcases mineBlock_cases hm with ⟨_, _, h3, _⟩ |
    ⟨sel, _, _, _, _, _, _, h7⟩ |
    ⟨sel, u1, p1, p2, _, _, h3, h4, _, _, _, _, h9, h10, h11, _, _⟩
  · exact absurd he h3
  · rw [h7] at he; cases he
  · have hrm := removeTransactions_append h9 h10
    have hf := removeTransactions_eq_filter hnd hrm
    have hp : a.chain.pool = p2 := by rw [h11]
    have hsub : p2.Sublist s.pool := removeTransactions_sublist hrm
    rw [h3, h4, hp]
    refine ⟨hf, ?_, ?_, hsub, List.Nodup.sublist (hsub.map _) hnd⟩
    · intro t ht r hr hid
      rw [hf, List.mem_filter] at ht
      have := ht.2
      simp only [decide_eq_true_eq] at this
      exact this (by rw [hid]; exact List.mem_map_of_mem _ hr)
    · intro t ht hall
      rw [hf, List.mem_filter]
      refine ⟨ht, ?_⟩
      simp only [decide_eq_true_eq, List.mem_map, not_exists, not_and]
      intro r hr hid
      exact hall r hr hid.symm

theorem mineBlock_commit_prunes_witness :
    mineBlock sampleDefines (Blockchain.mk [userA, userB] [txBA5, txAB30] []) 0 false
        quietSearch =
      .ok (Attempt.mk (Blockchain.mk [{ userA with balance := 70 }, { userB with balance := 30 }]
            [] [minedBlock sampleDefines [] [txAB30] quietSearch]) true Exit.committed
            [txAB30] [txBA5]) ∧
    ([] : List Transaction) = [txBA5, txAB30].filter
      (fun t => decide (t.id ∉ ([txAB30] ++ [txBA5]).map Transaction.id)) :=
  ⟨by decide,
   (mineBlock_commit_prunes sampleDefines (Blockchain.mk [userA, userB] [txBA5, txAB30] [])
      0 false quietSearch
      (Attempt.mk (Blockchain.mk [{ userA with balance := 70 }, { userB with balance := 30 }]
        [] [minedBlock sampleDefines [] [txAB30] quietSearch]) true Exit.committed
        [txAB30] [txBA5])
      (by decide) rfl (by decide)).1⟩

/-! ## C4: commit accounting -/

/-- C4: with users A (balance 100) and B (balance 0), a pool holding only a transfer of 30
from A to B, a chain of length `n` and `initialBlockchainSize = n`, an attempt that is not
cancelled and whose hash check passes commits: A ends with 70, B with 30, the pool is
empty and the chain is the old chain with one block appended. In general a committing
attempt leaves the ledger obtained by applying the block's transactions in order and
appends exactly one block, which holds the candidates. The cap on transactions per block
is at least one. -/
theorem mineBlock_commit_accounting (d : Defines) (hcap : 1 ≤ d.TRANSACTIONS_IN_BLOCK)
    (nameA nameB : String) (pkA pkB : Nat) (hpk : pkA ≠ pkB) (txId : Nat)
    (chain : List Block) (flag : Bool) (o : Search)
    (hcan : flagAfterSearch flag o = false) (hok : o.hashOk = true) :
    mineBlock d
        { users := [{ name := nameA, publicKey := pkA, balance := 100 },
                    { name := nameB, publicKey := pkB, balance := 0 }],
          pool := [{ id := txId, sender := pkA, address := pkB, amount := 30 }],
          blockchain := chain }
        chain.length flag o =
      .ok { chain :=
              { users := [{ name := nameA, publicKey := pkA, balance := 70 },
                          { name := nameB, publicKey := pkB, balance := 30 }],
                pool := [],
                blockchain := chain ++
                  [minedBlock d chain
                    [{ id := txId, sender := pkA, address := pkB, amount := 30 }] o] },
            finishedMining := true, exit := Exit.committed,
            candidates := [{ id := txId, sender := pkA, address := pkB, amount := 30 }],
            invalidTxs := [] } ∧
    (chain ++ [minedBlock d chain
        [{ id := txId, sender := pkA, address := pkB, amount := 30 }] o]).length =
      chain.length + 1 ∧
    ∀ (s : Blockchain) (h : Nat) (f : Bool) (o1 : Search) (a : Attempt),
      mineBlock d s h f o1 = .ok a → a.exit = Exit.committed →
      applyTransactions s.users a.candidates = .ok a.chain.users ∧
      a.chain.blockchain = s.blockchain ++ [minedBlock d s.blockchain a.candidates o1] ∧
      (minedBlock d s.blockchain a.candidates o1).transactions = a.candidates ∧
      a.chain.blockchain.length = s.blockchain.length + 1 := by
  refine ⟨?_, by simp, ?_⟩
  · have hpk1 : ¬ pkB = pkA := fun e => hpk e.symm
    have hlt : 0 < d.TRANSACTIONS_IN_BLOCK := hcap
    have h0 : o.draws 0 % 1 = 0 := Nat.mod_one _
    have hs : selectTransactions d.TRANSACTIONS_IN_BLOCK o.draws
        [{ name := nameA, publicKey := pkA, balance := 100 },
         { name := nameB, publicKey := pkB, balance := 0 }]
        [{ id := txId, sender := pkA, address := pkB, amount := 30 }] =
        .ok { us := [{ name := nameA, publicKey := pkA, balance := 70 },
                     { name := nameB, publicKey := pkB, balance := 30 }],
              poo := [], invalid := [],
              candidates := [{ id := txId, sender := pkA, address := pkB, amount := 30 }],
              drawn := 1 } := by
      simp [selectTransactions, selectionLoop, addTransactionToNewBlock,
        addTransactionToNewBlockLoop, selectRandomTransaction, findUserByPk_cons,
        updateUserBalance, setBalance, hpk, hpk1, hlt, h0]
    simp [mineBlock, hs, mineAndCommit, commitSection, applyTransactions,
      updateUserBalance, findUserByPk_cons, setBalance, removeTransactions, minedBlock,
      hcan, hok, hpk, hpk1]
  · intro s h f o1 a hm he
    rcases mineBlock_cases hm with ⟨_, _, h3, _⟩ |
      ⟨sel, _, _, _, _, _, _, h7⟩ |
      ⟨sel, u1, p1, p2, _, _, h3, h4, _, _, _, h8, h9, h10, h11, h12, h13⟩
    · exact absurd he h3
    · rw [h7] at he; cases he
    · rw [h3, h11]
      exact ⟨h8, rfl, rfl, by simp⟩

theorem mineBlock_commit_accounting_witness :
    mineBlock sampleDefines (Blockchain.mk [userA, userB] [txAB30] []) 0 false quietSearch =
      .ok { chain :=
              { users := [{ name := "user0", publicKey := 1, balance := 70 },
                          { name := "user1", publicKey := 2, balance := 30 }],
                pool := [],
                blockchain := [minedBlock sampleDefines [] [txAB30] quietSearch] },
            finishedMining := true, exit := Exit.committed,
            candidates := [txAB30], invalidTxs := [] } :=
  (mineBlock_commit_accounting sampleDefines (by decide) "user0" "user1" 1 2 (by decide) 7 []
    false quietSearch rfl rfl).1

/-! ## C5: a transaction is in at most one block -/

/-- C5: if the pool ids are pairwise distinct, none of them occurs in a block of the
chain and no id occurs twice across the blocks of the chain, then the same holds after any
sequentially executed `mineBlock` attempt; in particular no transaction id is ever in two
committed blocks, or twice in one. -/
theorem mineBlock_unique_ids (d : Defines) (s : Blockchain) (h : Nat) (flag : Bool)
    (o : Search) (a : Attempt) (hinv : UniqueIds s) (hm : mineBlock d s h flag o = .ok a) :
    UniqueIds a.chain := by
  obtain ⟨hnd, hch, hdis⟩ := hinv
  rcases mineBlock_cases hm with ⟨h1, _⟩ |
    ⟨sel, _, _, _, _, h5, _⟩ |
    ⟨sel, u1, p1, p2, hs, _, _, _, _, _, _, _, h9, h10, h11, _, _⟩
  · rw [h1]; exact ⟨hnd, hch, hdis⟩
  · rw [h5]
    exact ⟨by simp, hch, by simp⟩
  · have htr := selectTransactions_tracks hs
    have hrm := removeTransactions_append h9 h10
    have hf := removeTransactions_eq_filter hnd hrm
    have hsub : p2.Sublist s.pool := removeTransactions_sublist hrm
    have hperm : ((sel.candidates ++ sel.invalid ++ sel.poo).map Transaction.id).Perm
        (s.pool.map Transaction.id) := htr.1.map _
    have hall : ((sel.candidates ++ sel.invalid ++ sel.poo).map Transaction.id).Nodup :=
      hperm.nodup_iff.2 hnd
    have hcn : (sel.candidates.map Transaction.id).Nodup := by
      simp only [List.map_append, List.append_assoc] at hall
      exact hall.of_append_left
    have hcsub : ∀ i ∈ sel.candidates.map Transaction.id, i ∈ s.pool.map Transaction.id := by
      intro i hi
      refine hperm.subset ?_
      simp only [List.map_append, List.mem_append]
      exact Or.inl (Or.inl hi)
    rw [h11]
    refine ⟨List.Nodup.sublist (hsub.map _) hnd, ?_, ?_⟩
    · simp only [chainIds_append, chainIds, minedBlock, List.append_nil]
      refine List.Nodup.append hch hcn ?_
      intro i hi hi2
      exact hdis i (hcsub i hi2) hi
    · intro i hi
      simp only [chainIds_append, chainIds, minedBlock, List.append_nil, List.mem_append,
        not_or]
      have hip : i ∈ s.pool.map Transaction.id := (hsub.map _).subset hi
      refine ⟨hdis i hip, ?_⟩
      intro hic
      simp only at hi
      rw [hf] at hi
      obtain ⟨t, ht, rfl⟩ := List.mem_map.1 hi
      have := (List.mem_filter.1 ht).2
      simp only [decide_eq_true_eq, List.map_append, List.mem_append, not_or] at this
      exact this.1 hic

theorem mineBlock_unique_ids_witness :
    UniqueIds (Blockchain.mk [userA, userB] [txBA5, txAB30] []) ∧
    UniqueIds (Blockchain.mk [{ userA with balance := 70 }, { userB with balance := 30 }] []
      [minedBlock sampleDefines [] [txAB30] quietSearch]) :=
  ⟨⟨by decide, by decide, by decide⟩,
   mineBlock_unique_ids sampleDefines (Blockchain.mk [userA, userB] [txBA5, txAB30] []) 0
     false quietSearch
     (Attempt.mk (Blockchain.mk [{ userA with balance := 70 }, { userB with balance := 30 }]
        [] [minedBlock sampleDefines [] [txAB30] quietSearch]) true Exit.committed
        [txAB30] [txBA5])
     ⟨by decide, by decide, by decide⟩ (by decide)⟩

/-! ## C6: two transfers that together overdraw the sender -/

/-- C6: with a private ledger in which the sender has balance 10 and a private pool
holding exactly two transfers of 6 from that sender to other users of the ledger, for
every outcome of the draws and every cap of at least two the selection loop of `mineBlock`
ends with one of the two as the only candidate, the other as the only invalid transaction,
an empty private pool and a private sender balance of 4. -/
theorem selection_detects_overdraft (cap : Nat) (hcap : 2 ≤ cap) (draws : Nat → Nat)
    (us : List User) (u r1 r2 : User) (t1 t2 : Transaction)
    (hu : findUserByPk us t1.sender = some u) (hbal : u.balance = 10)
    (hsame : t2.sender = t1.sender) (ha1 : t1.amount = 6) (ha2 : t2.amount = 6)
    (hne1 : t1.address ≠ t1.sender) (hne2 : t2.address ≠ t2.sender)
    (hr1 : findUserByPk us t1.address = some r1)
    (hr2 : findUserByPk us t2.address = some r2) :
    ∃ sel, selectTransactions cap draws us [t1, t2] = .ok sel ∧
      ((sel.candidates = [t1] ∧ sel.invalid = [t2]) ∨
        (sel.candidates = [t2] ∧ sel.invalid = [t1])) ∧
      sel.poo = [] ∧
      (findUserByPk sel.us t1.sender).map User.balance = some 4 := by
  have hcases : draws 0 % 2 = 0 ∨ draws 0 % 2 = 1 := by omega
  rcases hcases with h0 | h1
  · refine ⟨_, selectionLoop_accept_then_reject cap hcap draws us u r1 t1 t2 [t1, t2] rfl
      (by rw [h0]; rfl) (by rw [h0]; rfl) hu hbal hsame ha1 ha2 hne1 hr1, Or.inl ⟨rfl, rfl⟩,
      rfl, ?_⟩
    simp only
    rw [findUserByPk_sender_after 4 (r1.balance + 6) hu hne1]
    rfl
  · have hu2 : findUserByPk us t2.sender = some u := by rw [hsame]; exact hu
    refine ⟨_, selectionLoop_accept_then_reject cap hcap draws us u r2 t2 t1 [t1, t2] rfl
      (by rw [h1]; rfl) (by rw [h1]; rfl) hu2 hbal hsame.symm ha2 ha1 hne2 hr2,
      Or.inr ⟨rfl, rfl⟩, rfl, ?_⟩
    simp only
    rw [← hsame, findUserByPk_sender_after 4 (r2.balance + 6) hu2 hne2]
    rfl

theorem selection_detects_overdraft_witness :
    ∃ sel, selectTransactions 2 (fun _ => 1) [userS, userB] [tx6a, tx6b] = .ok sel ∧
      ((sel.candidates = [tx6a] ∧ sel.invalid = [tx6b]) ∨
        (sel.candidates = [tx6b] ∧ sel.invalid = [tx6a])) ∧
      sel.poo = [] ∧
      (findUserByPk sel.us tx6a.sender).map User.balance = some 4 :=
  selection_detects_overdraft 2 (by decide) (fun _ => 1) [userS, userB] userS userB userB
    tx6a tx6b (by decide) (by decide) (by decide) (by decide) (by decide) (by decide)
    (by decide) (by decide) (by decide)

/-! ## C7: pruning a transaction that is not in the pool -/

/-- C7 fails on the code: when the id of a transaction of `txs` is not in the pool,
`std::find_if` returns `pool.end()` and `pool.erase(pool.end())` is undefined behaviour,
not a no-op; in particular a second call with the same list, after a first call that
succeeded, is undefined. -/
theorem removeTransactions_absent_id :
    removeTransactions [txAB30] [txBA5] = .undefinedBehaviour ∧
    removeTransactions [txAB30] [txAB30] = .ok [] ∧
    removeTransactions [] [txAB30] = .undefinedBehaviour := by
  decide

/-! ## C8: all or nothing -/

/-- C8, as stated, fails: with a pool whose only transaction is unaffordable, the attempt
empties the pool (line 119) and leaves the chain and the ledger as they were, without a
commit. -/
theorem mineBlock_clears_pool_without_commit :
    mineBlock sampleDefines (Blockchain.mk [userA, userB] [txBA5] []) 0 false quietSearch =
      .ok { chain := Blockchain.mk [userA, userB] [] [], finishedMining := false,
            exit := Exit.noCandidates, candidates := [], invalidTxs := [txBA5] } ∧
    (Blockchain.mk [userA, userB] [] []).pool ≠
      (Blockchain.mk [userA, userB] [txBA5] []).pool := by
  decide

/-- C8, amended: an attempt either commits, and then the chain gets the mined block, the
ledger gets the block's transactions applied in order and the pool is pruned of the
candidates and then of the invalid transactions (one pass over the two lists); or it does
not commit, and then the chain and the ledger are unchanged and the pool is either
unchanged or, when selection ended with no candidate, emptied. The flag is set by a
commit, is found set by an attempt that returns as cancelled, and is as on entry
otherwise. -/
theorem mineBlock_commit_or_clear (d : Defines) (s : Blockchain) (h : Nat) (flag : Bool)
    (o : Search) (a : Attempt) (hm : mineBlock d s h flag o = .ok a) :
    (a.exit = Exit.committed ∧ a.finishedMining = true ∧
      a.chain.blockchain = s.blockchain ++ [minedBlock d s.blockchain a.candidates o] ∧
      applyTransactions s.users a.candidates = .ok a.chain.users ∧
      removeTransactions s.pool (a.candidates ++ a.invalidTxs) = .ok a.chain.pool) ∨
    (a.exit ≠ Exit.committed ∧
      ((a.exit ≠ Exit.cancelled → a.finishedMining = flag) ∧
        (a.exit = Exit.cancelled →
          a.finishedMining = true ∧ flagAfterSearch flag o = true)) ∧
      a.chain.blockchain = s.blockchain ∧ a.chain.users = s.users ∧
      (a.chain.pool = s.pool ∨
        (a.exit = Exit.noCandidates ∧ a.candidates = [] ∧ a.chain.pool = []))) := by
  rcases mineBlock_cases hm with ⟨h1, h2, h3, _⟩ |
    ⟨sel, _, _, h3, _, h5, h6, h7⟩ |
    ⟨sel, u1, p1, p2, _, _, h3, h4, _, _, _, h8, h9, h10, h11, h12, h13⟩
  · right
    rw [h1]
    exact ⟨h3, h2, rfl, rfl, Or.inl rfl⟩
  · right
    rw [h5]
    refine ⟨by rw [h7]; simp, ⟨fun _ => h6, fun he => by rw [h7] at he; cases he⟩,
      rfl, rfl, Or.inr ⟨h7, h3, rfl⟩⟩
  · left
    rw [h3, h4, h11]
    exact ⟨h13, h12, rfl, h8, removeTransactions_append h9 h10⟩

theorem mineBlock_commit_or_clear_witness :
    mineBlock sampleDefines (Blockchain.mk [userA, userB] [txBA5, txAB30] []) 0 false
        cancelledSearch =
      .ok (Attempt.mk (Blockchain.mk [userA, userB] [txBA5, txAB30] []) true Exit.cancelled
        [txAB30] [txBA5]) ∧
    (Exit.cancelled ≠ Exit.committed ∧
      ((Exit.cancelled ≠ Exit.cancelled → true = false) ∧
        (Exit.cancelled = Exit.cancelled →
          true = true ∧ flagAfterSearch false cancelledSearch = true)) ∧
      ([] : List Block) = [] ∧ [userA, userB] = [userA, userB] ∧
      ([txBA5, txAB30] = [txBA5, txAB30] ∨
        (Exit.cancelled = Exit.noCandidates ∧ [txAB30] = [] ∧
          [txBA5, txAB30] = ([] : List Transaction)))) :=
  ⟨by decide,
   (mineBlock_commit_or_clear sampleDefines
      (Blockchain.mk [userA, userB] [txBA5, txAB30] []) 0 false cancelledSearch
      (Attempt.mk (Blockchain.mk [userA, userB] [txBA5, txAB30] []) true Exit.cancelled
        [txAB30] [txBA5]) (by decide)).resolve_left (by decide)⟩

/-! ## C9: attempts that reach the search and do not commit -/

/-- C9, as stated, fails: an attempt entered with the flag clear, during whose search
another worker sets the flag, returns at line 136 with the chain, the ledger and the pool
untouched but with the flag set, not as it was before the attempt. -/
theorem mineBlock_cancelled_finds_flag_set :
    mineBlock sampleDefines (Blockchain.mk [userA, userB] [txAB30] []) 0 false cancelledSearch =
      .ok { chain := Blockchain.mk [userA, userB] [txAB30] [], finishedMining := true,
            exit := Exit.cancelled, candidates := [txAB30], invalidTxs := [] } ∧
    true ≠ false := by
  decide

/-- C9, amended: an attempt that has users, whose selection ends with a non-empty
candidate list, and that then finds the flag set after the search, or a failed
`checkBlockHash`, or a chain length different from `initialBlockchainSize`, returns with
the chain, the ledger and the pool exactly as they were and without writing the flag: at
the return the flag is set exactly when it was set on entry or another worker set it
during the search, so it is as on entry when no other worker set it. -/
theorem mineBlock_abort_frame (d : Defines) (s : Blockchain) (h : Nat) (flag : Bool)
    (o : Search) (sel : Selection) (hu : s.users ≠ [])
    (hs : selectTransactions d.TRANSACTIONS_IN_BLOCK o.draws s.users s.pool = .ok sel)
    (hc : sel.candidates ≠ [])
    (hab : flagAfterSearch flag o = true ∨ o.hashOk = false ∨ s.blockchain.length ≠ h) :
    mineBlock d s h flag o =
      .ok { chain := s, finishedMining := flagAfterSearch flag o,
            exit := if flagAfterSearch flag o then Exit.cancelled
                    else if o.hashOk then Exit.lostRace else Exit.tampered,
            candidates := sel.candidates, invalidTxs := sel.invalid } ∧
    (flagAfterSearch flag o = true ↔ (flag = true ∨ o.raisedDuringSearch = true)) ∧
    (o.raisedDuringSearch = false → flagAfterSearch flag o = flag) ∧
    ∀ a, mineBlock d s h flag o = .ok a →
      a.chain = s ∧ a.finishedMining = flagAfterSearch flag o ∧
      (a.exit = Exit.cancelled ∨ a.exit = Exit.tampered ∨ a.exit = Exit.lostRace) := by
  have hmain : mineBlock d s h flag o =
      .ok { chain := s, finishedMining := flagAfterSearch flag o,
            exit := if flagAfterSearch flag o then Exit.cancelled
                    else if o.hashOk then Exit.lostRace else Exit.tampered,
            candidates := sel.candidates, invalidTxs := sel.invalid } := by
    have hu1 : s.users.isEmpty = false := by
      cases hus : s.users with
      | nil => exact absurd hus hu
      | cons x xs => rfl
    have hp1 : s.pool.isEmpty = false := by
      cases hps : s.pool with
      | nil =>
        rw [hps] at hs
        simp [selectTransactions, selectionLoop] at hs
        subst hs
        exact absurd rfl hc
      | cons x xs => rfl
    have hc1 : sel.candidates.isEmpty = false := by
      cases hcs : sel.candidates with
      | nil => exact absurd hcs hc
      | cons x xs => rfl
    unfold mineBlock
    simp only [hu1, hp1, hs, hc1, Bool.false_and]
    unfold mineAndCommit
    by_cases hcan : flagAfterSearch flag o = true
    · simp [hcan]
    · have hcanf : flagAfterSearch flag o = false := by simpa using hcan
      by_cases hok : o.hashOk = true
      · have hne : s.blockchain.length ≠ h := by
          rcases hab with h1 | h1 | h1
          · exact absurd h1 hcan
          · rw [hok] at h1; cases h1
          · exact h1
        simp [hcanf, hok, commitSection_lost hne]
      · simp [hcanf, hok]
  refine ⟨hmain, ?_, ?_, ?_⟩
  · simp [flagAfterSearch]
  · intro hr
    simp [flagAfterSearch, hr]
  · intro a hm
    rw [hmain] at hm
    cases hm
    refine ⟨rfl, rfl, ?_⟩
    by_cases hcan : flagAfterSearch flag o = true
    · simp [hcan]
    · by_cases hok : o.hashOk = true
      · simp [hcan, hok]
      · simp [hcan, hok]

theorem mineBlock_abort_frame_witness :
    mineBlock sampleDefines (Blockchain.mk [userA, userB] [txAB30] []) 5 false quietSearch =
      .ok { chain := Blockchain.mk [userA, userB] [txAB30] [], finishedMining := false,
            exit := Exit.lostRace, candidates := [txAB30], invalidTxs := [] } :=
  (mineBlock_abort_frame sampleDefines (Blockchain.mk [userA, userB] [txAB30] []) 5 false
    quietSearch
    { us := [{ userA with balance := 70 }, { userB with balance := 30 }], poo := [],
      invalid := [], candidates := [txAB30], drawn := 1 }
    (by decide) (by decide) (by decide) (Or.inr (Or.inr (by decide)))).1

/-! ## C10: an empty pool -/

/-- C10: when the authoritative pool is empty, `mineBlock` returns at line 83 (no users) or
at line 100 (empty pool), both before `block.mine` is reached, and the chain, the ledger,
the pool and the flag `finishedMining` are what they were. -/
theorem mineBlock_empty_pool (d : Defines) (s : Blockchain) (h : Nat) (flag : Bool)
    (o : Search) (hp : s.pool = []) :
    mineBlock d s h flag o =
      .ok { chain := s, finishedMining := flag,
            exit := if s.users.isEmpty then Exit.noUsers else Exit.emptyPool,
            candidates := [], invalidTxs := [] } := by
  unfold mineBlock
  by_cases hu : s.users.isEmpty
  · simp [hu]
  · simp [hu, hp]

theorem mineBlock_empty_pool_witness :
    (Blockchain.mk [userA, userB] [] []).pool = [] ∧
    mineBlock sampleDefines (Blockchain.mk [userA, userB] [] []) 0 false quietSearch =
      .ok { chain := Blockchain.mk [userA, userB] [] [], finishedMining := false,
            exit := Exit.emptyPool, candidates := [], invalidTxs := [] } :=
  ⟨rfl, mineBlock_empty_pool sampleDefines (Blockchain.mk [userA, userB] [] []) 0 false
    quietSearch rfl⟩

/-! ## C11: when the pool is cleared -/

/-- C11: with a cap of at least one, whenever a sequentially executed `mineBlock` attempt
clears the authoritative pool (its selection ended with no candidate), every transaction
of the pool at the start of the attempt had an amount strictly greater than the balance of
its sender in the ledger at that moment; the attempt returns before the search, with an
empty pool and with the chain, the ledger and the flag unchanged. -/
theorem mineBlock_clear_means_unaffordable (d : Defines) (s : Blockchain) (h : Nat)
    (flag : Bool) (o : Search) (a : Attempt) (hcap : 1 ≤ d.TRANSACTIONS_IN_BLOCK)
    (hm : mineBlock d s h flag o = .ok a) (he : a.exit = Exit.noCandidates) :
    (∀ t ∈ s.pool, Unaffordable s.users t) ∧
    a.chain.pool = [] ∧ a.chain.blockchain = s.blockchain ∧ a.chain.users = s.users ∧
    a.finishedMining = flag ∧ a.candidates = [] := by
  rcases mineBlock_cases hm with ⟨_, _, _, h4⟩ |
    ⟨sel, hs, hc, h3, _, h5, h6, _⟩ |
    ⟨_, _, _, _, _, _, _, _, _, _, _, _, _, _, _, _, h13⟩
  · exact absurd he h4
  · refine ⟨?_, by rw [h5], by rw [h5], by rw [h5], h6, h3⟩
    have hexit := selectionLoop_exit _ _ _ _ _ hs
    have hpoo : sel.poo = [] := by
      rcases hexit with hp | hp
      · exact hp
      · rw [hc] at hp
        simp at hp
        omega
    have hperm := (selectTransactions_tracks hs).1
    rw [hc, hpoo] at hperm
    simp only [List.nil_append, List.append_nil] at hperm
    have hinv := selectionLoop_no_candidates _ _ s.users _ _ _ hs (fun _ => ⟨rfl, by simp⟩) hc
    intro t ht
    exact hinv.2 t (hperm.symm.subset ht)
  · rw [h13] at he; cases he

theorem mineBlock_clear_means_unaffordable_witness :
    mineBlock sampleDefines (Blockchain.mk [userA, userB] [txBA5] []) 0 false quietSearch =
      .ok (Attempt.mk (Blockchain.mk [userA, userB] [] []) false Exit.noCandidates [] [txBA5]) ∧
    ∀ t ∈ [txBA5], Unaffordable [userA, userB] t :=
  ⟨by decide,
   (mineBlock_clear_means_unaffordable sampleDefines (Blockchain.mk [userA, userB] [txBA5] [])
      0 false quietSearch
      (Attempt.mk (Blockchain.mk [userA, userB] [] []) false Exit.noCandidates [] [txBA5])
      (by decide) (by decide) rfl).1⟩

/-! ## C12: the number of candidates -/

/-- C12: a call of `addTransactionToNewBlock` that returns has appended exactly one
transaction to `candidates`, or none and then the private pool has run empty; after the
selection loop of `mineBlock` the number of candidates is at most the cap, and the loop
has stopped with an empty private pool or with as many candidates as the cap; so the
candidates of every attempt are at most `TRANSACTIONS_IN_BLOCK`. -/
theorem candidates_bounded_by_cap (cap : Nat) (draws : Nat → Nat) :
    (∀ st st1, addTransactionToNewBlock draws st = .ok st1 →
      (st1.candidates = st.candidates ∧ st1.poo = []) ∨
        ∃ t, st1.candidates = st.candidates ++ [t]) ∧
    (∀ us pool sel, selectTransactions cap draws us pool = .ok sel →
      sel.candidates.length ≤ cap ∧ (sel.poo = [] ∨ sel.candidates.length = cap)) ∧
    ∀ (d : Defines) (s : Blockchain) (h : Nat) (flag : Bool) (o : Search) (a : Attempt),
      mineBlock d s h flag o = .ok a → a.candidates.length ≤ d.TRANSACTIONS_IN_BLOCK := by
  have hsel : ∀ (c : Nat) (dr : Nat → Nat) us pool sel,
      selectTransactions c dr us pool = .ok sel →
      sel.candidates.length ≤ c ∧ (sel.poo = [] ∨ sel.candidates.length = c) := by
    intro c dr us pool sel hs
    have hle := selectionLoop_cap c dr _ _ _ hs (Nat.zero_le _)
    refine ⟨hle, ?_⟩
    rcases selectionLoop_exit c dr _ _ _ hs with hp | hp
    · exact Or.inl hp
    · exact Or.inr (by omega)
  refine ⟨?_, hsel cap draws, ?_⟩
  · intro st st1 ha
    obtain ⟨_, _, _, h3⟩ := addTransactionToNewBlockLoop_outcome draws _ _ _ ha
    rcases h3 with ⟨_, h4, h5⟩ | ⟨t, h4, _⟩
    · exact Or.inl ⟨h4, h5⟩
    · exact Or.inr ⟨t, h4⟩
  · intro d s h flag o a hm
    rcases mineBlock_candidates hm with ⟨h1, _⟩ | ⟨sel, hs, h1, _⟩
    · rw [h1]; simp
    · rw [h1]; exact (hsel _ _ _ _ _ hs).1

theorem candidates_bounded_by_cap_witness :
    ([txAB30] : List Transaction).length ≤ 1 ∧
    (([txAB10] : List Transaction) = [] ∨ ([txAB30] : List Transaction).length = 1) :=
  (candidates_bounded_by_cap 1 (fun _ => 0)).2.1 [userA, userB] [txAB30, txAB10]
    { us := [{ userA with balance := 70 }, { userB with balance := 30 }], poo := [txAB10],
      invalid := [], candidates := [txAB30], drawn := 1 }
    (by decide)

/-! ## C13: what goes to the invalid set -/

/-- C13: in a call of `addTransactionToNewBlock` that returns, every transaction appended
to the invalid set had an amount strictly greater than the balance of its sender in the
private ledger, which is the ledger of entry because a rejection changes neither the ledger
nor the candidates; the call ends with the ledger and the candidates untouched and an empty
pool, or with one transaction appended to the candidates, whose amount was at most the
balance of its sender, and with the ledger updated by that transaction alone. Over the
whole selection loop, every invalid transaction was unaffordable in the ledger snapshot
with the candidates chosen before it applied. -/
theorem invalid_only_if_unaffordable (draws : Nat → Nat) (st st1 : Selection)
    (h : addTransactionToNewBlock draws st = .ok st1) :
    (∃ rejected, st1.invalid = st.invalid ++ rejected ∧
      (∀ t ∈ rejected, Unaffordable st.us t) ∧
      ((st1.us = st.us ∧ st1.candidates = st.candidates ∧ st1.poo = []) ∨
        ∃ t, st1.candidates = st.candidates ++ [t] ∧ Affordable st.us t ∧
          updateUserBalance st.us t = .ok st1.us)) ∧
    ∀ (cap : Nat) (us : List User) (pool : List Transaction) (sel : Selection),
      selectTransactions cap draws us pool = .ok sel →
      ∀ t ∈ sel.invalid, ∃ pre us1, pre <+: sel.candidates ∧
        applyTransactions us pre = .ok us1 ∧ Unaffordable us1 t := by
  refine ⟨addTransactionToNewBlockLoop_outcome draws _ _ _ h, ?_⟩
  intro cap us pool sel hs
  exact (selectionLoop_invalid_history cap draws us _ _ _ hs ⟨rfl, by simp⟩).2

theorem invalid_only_if_unaffordable_witness :
    ∃ rejected, [txBA5] = ([] : List Transaction) ++ rejected ∧
      (∀ t ∈ rejected, Unaffordable [userA, userB] t) ∧
      ((([{ userA with balance := 70 }, { userB with balance := 30 }] : List User) =
            [userA, userB] ∧ [txAB30] = ([] : List Transaction) ∧
          ([] : List Transaction) = []) ∨
        ∃ t, [txAB30] = ([] : List Transaction) ++ [t] ∧ Affordable [userA, userB] t ∧
          updateUserBalance [userA, userB] t =
            .ok [{ userA with balance := 70 }, { userB with balance := 30 }]) :=
  (invalid_only_if_unaffordable (fun _ => 0)
    { us := [userA, userB], poo := [txBA5, txAB30], invalid := [], candidates := [],
      drawn := 0 }
    { us := [{ userA with balance := 70 }, { userB with balance := 30 }], poo := [],
      invalid := [txBA5], candidates := [txAB30], drawn := 2 }
    (by decide)).1

/-! ## C14: generation of transactions -/

/-- C14, as stated, fails: with two users named `user0` and `user1` and a generator whose
every draw is 0, the loop `do ... while (num2 == num1)` draws 0 again and again;
`generateTransactions(1, 1, 10)` returns for no amount of fuel, so it appends nothing. -/
theorem generateTransactions_stuck_on_constant_draws :
    (2 ≤ [userA, userB].length ∧ NamedInOrder [userA, userB]) ∧
    ∀ fuel, generateTransactions (Blockchain.mk [userA, userB] [] []) 1 1 10 stuckGenerator
      fuel = .outOfFuel := by
  refine ⟨⟨by decide, namedInOrder_sample⟩, ?_⟩
  intro fuel
  have hd := drawOther_stuck fuel 1
  have h1 : generateRandomNumber 0 ((([userA, userB] : List User).length : Int) - 1)
      (stuckGenerator.rand 0) = some 0 := by decide
  have h2 : findUserByUsername [userA, userB] ("user" ++ toString (0 : Int)) = some userA := by
    decide
  have hl : generateLoop stuckGenerator [userA, userB] 1 10 fuel 1 0 0 [] = .outOfFuel := by
    unfold generateLoop
    rw [h1]
    dsimp only
    rw [h2]
    dsimp only
    have hd1 : drawOther stuckGenerator.rand ([userA, userB] : List User).length 0 fuel (0 + 1) =
        .outOfFuel := hd
    rw [hd1]
  have hc : (1 : Int).toNat = 1 := by decide
  simp only [generateTransactions, List.length_cons, List.length_nil, hc]
  rw [hl]
  decide

/-- C14, amended: `generateTransactions(count, min, max)` leaves everything unchanged when
there are fewer than two users. With at least two users named `user0`, `user1`, ... in
ledger order, whenever it returns it has kept the users, the chain and the old pool as a
prefix, and appended exactly `count` transactions (none for a negative `count`), each with
an amount within `[min, max]` and with the keys of two users at different positions as
sender and recipient. With `min ≤ max` it returns, with one and the same result for every
large enough bound on the redraws, for every outcome of the generator in which every
`do ... while (num2 == num1)` loop of the call ends, and for every other outcome it does
not return, whatever the bound. -/
theorem generateTransactions_appends (s : Blockchain) (count lo hi : Int) (g : Generator) :
    (∀ fuel, s.users.length < 2 → generateTransactions s count lo hi g fuel = .ok s) ∧
    (2 ≤ s.users.length → NamedInOrder s.users →
      ∀ fuel s1, generateTransactions s count lo hi g fuel = .ok s1 →
        Generated s count lo hi s1) ∧
    (2 ≤ s.users.length → NamedInOrder s.users → lo ≤ hi →
      (RedrawsEnd g.rand s.users.length count.toNat 0 →
        ∃ fuel0 s1, Generated s count lo hi s1 ∧
          ∀ fuel, fuel0 ≤ fuel → generateTransactions s count lo hi g fuel = .ok s1) ∧
      (¬ RedrawsEnd g.rand s.users.length count.toNat 0 →
        ∀ fuel, generateTransactions s count lo hi g fuel = .outOfFuel)) := by
  have hpost : 2 ≤ s.users.length → NamedInOrder s.users →
      ∀ fuel s1, generateTransactions s count lo hi g fuel = .ok s1 →
        Generated s count lo hi s1 := by
    intro hn hnamed fuel s1 hg
    unfold generateTransactions at hg
    have hlt : ¬ s.users.length < 2 := by omega
    simp only [hlt, if_false] at hg
    cases hl : generateLoop g s.users lo hi fuel count.toNat 0 0 s.pool with
    | ok pool1 =>
      rw [hl] at hg
      cases hg
      obtain ⟨new, h1, h2, h3⟩ :=
        generateLoop_generated g s.users lo hi fuel (by omega) hnamed _ _ _ _ _ hl
      exact ⟨rfl, rfl, new, h1, h2, h3⟩
    | undefinedBehaviour => rw [hl] at hg; cases hg
    | outOfFuel => rw [hl] at hg; cases hg
  refine ⟨?_, hpost, ?_⟩
  · intro fuel hlt
    simp [generateTransactions, hlt]
  · intro hn hnamed hlohi
    have hlt : ¬ s.users.length < 2 := by omega
    constructor
    · intro hre
      obtain ⟨fuel0, hf⟩ :=
        generateLoop_returns g s.users lo hi (by omega) hnamed hlohi count.toNat 0 hre
      obtain ⟨pool1, hp⟩ := hf 0 s.pool
      have hg : ∀ fuel, fuel0 ≤ fuel →
          generateTransactions s count lo hi g fuel = .ok { s with pool := pool1 } := by
        intro fuel hfuel
        simp only [generateTransactions, hlt, if_false, hp fuel hfuel]
      exact ⟨fuel0, _, hpost hn hnamed fuel0 _ (hg fuel0 (le_refl _)), hg⟩
    · intro hre fuel
      unfold generateTransactions
      simp only [hlt, if_false]
      cases hl : generateLoop g s.users lo hi fuel count.toNat 0 0 s.pool with
      | ok pool1 =>
        exact absurd (generateLoop_redrawsEnd g s.users lo hi fuel (by omega) _ _ _ _ _ hl) hre
      | undefinedBehaviour =>
        exact absurd hl
          (generateLoop_ne_undefined g s.users lo hi fuel (by omega) hnamed hlohi _ _ _ _)
      | outOfFuel => rfl

theorem generateTransactions_appends_witness :
    ∃ fuel0 s1, Generated (Blockchain.mk [userA, userB] [txAB30] []) 2 1 50 s1 ∧
      ∀ fuel, fuel0 ≤ fuel →
        generateTransactions (Blockchain.mk [userA, userB] [txAB30] []) 2 1 50
          countingGenerator fuel = .ok s1 :=
  ((generateTransactions_appends (Blockchain.mk [userA, userB] [txAB30] []) 2 1 50
    countingGenerator).2.2 (by decide) namedInOrder_sample (by decide)).1
    ⟨0, ⟨by decide, fun i hi => absurd hi (Nat.not_lt_zero _)⟩,
      0, ⟨by decide, fun i hi => absurd hi (Nat.not_lt_zero _)⟩, trivial⟩

/-! ## C15: selection partitions the snapshot -/

/-- C15: after the selection loop of `mineBlock`, for every pool snapshot, ledger snapshot,
cap and outcome of the draws, the candidates, the invalid set and the remaining private
pool together are a permutation of the pool snapshot: the lengths add up, every transaction
occurs in the three lists together as often as in the snapshot, and when the snapshot has
no repeated element the three lists are pairwise disjoint. -/
theorem selection_partitions_snapshot (cap : Nat) (draws : Nat → Nat) (us : List User)
    (pool : List Transaction) (sel : Selection)
    (h : selectTransactions cap draws us pool = .ok sel) :
    (sel.candidates ++ sel.invalid ++ sel.poo).Perm pool ∧
    sel.candidates.length + sel.invalid.length + sel.poo.length = pool.length ∧
    (∀ t, sel.candidates.count t + sel.invalid.count t + sel.poo.count t = pool.count t) ∧
    (pool.Nodup →
      (∀ t ∈ sel.candidates, t ∉ sel.invalid ∧ t ∉ sel.poo) ∧
      ∀ t ∈ sel.invalid, t ∉ sel.poo) := by
  have hperm := (selectTransactions_tracks h).1
  refine ⟨hperm, ?_, ?_, ?_⟩
  · have := hperm.length_eq
    simp only [List.length_append] at this
    omega
  · intro t
    have := hperm.count_eq t
    simp only [List.count_append] at this
    omega
  · intro hnd
    have hnd1 : (sel.candidates ++ sel.invalid ++ sel.poo).Nodup := hperm.nodup_iff.2 hnd
    rw [List.nodup_append] at hnd1
    obtain ⟨h1, _, h3⟩ := hnd1
    rw [List.nodup_append] at h1
    obtain ⟨_, _, h6⟩ := h1
    refine ⟨fun t ht => ⟨fun hi => h6 ht hi, fun hp => h3 (List.mem_append_left _ ht) hp⟩,
      fun t ht hp => h3 (List.mem_append_right _ ht) hp⟩

theorem selection_partitions_snapshot_witness :
    (([txAB30] : List Transaction) ++ [txBA5] ++ []).Perm [txBA5, txAB30] :=
  (selection_partitions_snapshot 2 (fun _ => 0) [userA, userB] [txBA5, txAB30]
    { us := [{ userA with balance := 70 }, { userB with balance := 30 }], poo := [],
      invalid := [txBA5], candidates := [txAB30], drawn := 2 }
    (by decide)).1

/-! ## C16: the lookups of the commit -/

/-- C16: in a sequentially executed `mineBlock` attempt whose pool ids are pairwise
distinct and whose selection returns, both `removeTransactions` calls of the commit find
every transaction they look for, so erasing at the end iterator does not happen; no
candidate shares an id with an invalid transaction; and the attempt as a whole returns. -/
theorem commit_lookups_succeed (d : Defines) (s : Blockchain) (h : Nat) (flag : Bool)
    (o : Search) (sel : Selection) (hnd : (s.pool.map Transaction.id).Nodup)
    (hs : selectTransactions d.TRANSACTIONS_IN_BLOCK o.draws s.users s.pool = .ok sel) :
    (∃ pool1 pool2, removeTransactions s.pool sel.candidates = .ok pool1 ∧
      removeTransactions pool1 sel.invalid = .ok pool2) ∧
    (∀ c ∈ sel.candidates, ∀ i ∈ sel.invalid, c.id ≠ i.id) ∧
    ∃ a, mineBlock d s h flag o = .ok a := by
  have htr := selectTransactions_tracks hs
  obtain ⟨hids, hsub⟩ := selection_ids_nodup htr hnd
  obtain ⟨p, hp⟩ := removeTransactions_returns hids hsub
  obtain ⟨p1, hp1, hp2⟩ := removeTransactions_append_inv hp
  have hdis : ∀ c ∈ sel.candidates, ∀ i ∈ sel.invalid, c.id ≠ i.id := by
    intro c hc i hi hid
    rw [List.map_append, List.nodup_append] at hids
    exact hids.2.2 (List.mem_map_of_mem _ hc) (by rw [hid]; exact List.mem_map_of_mem _ hi)
  refine ⟨⟨p1, p, hp1, hp2⟩, hdis, ?_⟩
  unfold mineBlock
  by_cases hu : s.users.isEmpty = true
  · simp only [hu, if_true]
    exact ⟨_, rfl⟩
  · by_cases hpe : s.pool.isEmpty = true
    · simp only [hu, hpe, if_true]
      exact ⟨_, rfl⟩
    · simp only [hu, hpe, hs]
      by_cases hc : sel.candidates = []
      · simp only [hc, List.isEmpty_nil, if_true, Bool.true_and]
        exact ⟨_, rfl⟩
      · have hc1 : sel.candidates.isEmpty = false := by
          cases hcs : sel.candidates with
          | nil => exact absurd hcs hc
          | cons x xs => rfl
        simp only [hc1, Bool.false_and]
        unfold mineAndCommit
        by_cases hcan : flagAfterSearch flag o = true
        · simp only [hcan, if_true]
          exact ⟨_, rfl⟩
        · have hcanf : flagAfterSearch flag o = false := by simpa using hcan
          by_cases hok : o.hashOk = true
          · simp only [hcanf, hok]
            obtain ⟨r, hr⟩ := commitSection_returns s false h
              (minedBlock d s.blockchain sel.candidates o) sel.invalid htr.2 hp1 hp2
            obtain ⟨s1, f1, e⟩ := r
            simp [hr]
          · simp [hcanf, hok]

theorem commit_lookups_succeed_witness :
    ∃ pool1 pool2, removeTransactions [txBA5, txAB30] [txAB30] = .ok pool1 ∧
      removeTransactions pool1 [txBA5] = .ok pool2 :=
  (commit_lookups_succeed sampleDefines (Blockchain.mk [userA, userB] [txBA5, txAB30] []) 0
    false quietSearch
    { us := [{ userA with balance := 70 }, { userB with balance := 30 }], poo := [],
      invalid := [txBA5], candidates := [txAB30], drawn := 2 }
    (by decide) (by decide)).1

/-! ## C17: conservation of funds -/

/-- C17: the sum of all balances of the authoritative ledger is the same after every
`mineBlock` attempt that returns (all the lookups of senders and recipients having
succeeded) as before it, whether or not it commits; the same holds of the commit section
alone and of the replay of any list of transactions. -/
theorem mineBlock_conserves_funds (d : Defines) (s : Blockchain) (h : Nat) (flag : Bool)
    (o : Search) (a : Attempt) (hm : mineBlock d s h flag o = .ok a) :
    totalBalance a.chain.users = totalBalance s.users ∧
    (∀ (s0 s1 : Blockchain) (f f1 : Bool) (h0 : Nat) (block : Block)
      (invalidTxs : List Transaction) (e : Exit),
      commitSection s0 f h0 block invalidTxs = .ok (s1, f1, e) →
      totalBalance s1.users = totalBalance s0.users) ∧
    ∀ (us us1 : List User) (ts : List Transaction),
      applyTransactions us ts = .ok us1 → totalBalance us1 = totalBalance us := by
  refine ⟨?_, ?_, fun us us1 ts hts => applyTransactions_total hts⟩
  · rcases mineBlock_cases hm with ⟨h1, _⟩ |
      ⟨sel, _, _, _, _, h5, _⟩ |
      ⟨sel, u1, p1, p2, _, _, _, _, _, _, _, h8, _, _, h11, _, _⟩
    · rw [h1]
    · rw [h5]
    · rw [h11]
      exact applyTransactions_total h8
  · intro s0 s1 f f1 h0 block invalidTxs e hc
    rcases commitSection_ok hc with ⟨_, h2, _, _⟩ | ⟨_, _, _, u1, p1, p2, h5, _, _, h8⟩
    · rw [h2]
    · rw [h8]
      exact applyTransactions_total h5

theorem mineBlock_conserves_funds_witness :
    mineBlock sampleDefines (Blockchain.mk [userA, userB] [txBA5, txAB30] []) 0 false
        quietSearch =
      .ok (Attempt.mk (Blockchain.mk [{ userA with balance := 70 }, { userB with balance := 30 }]
            [] [minedBlock sampleDefines [] [txAB30] quietSearch]) true Exit.committed
            [txAB30] [txBA5]) ∧
    totalBalance [{ userA with balance := 70 }, { userB with balance := 30 }] =
      totalBalance [userA, userB] :=
  ⟨by decide,
   (mineBlock_conserves_funds sampleDefines
      (Blockchain.mk [userA, userB] [txBA5, txAB30] []) 0 false quietSearch
      (Attempt.mk (Blockchain.mk [{ userA with balance := 70 }, { userB with balance := 30 }]
        [] [minedBlock sampleDefines [] [txAB30] quietSearch]) true Exit.committed
        [txAB30] [txBA5])
      (by decide)).1⟩

/-! ## C18: termination of selection -/

/-- C18, as stated, fails: with a private ledger that holds the sender but not the
recipient, `addTransactionToNewBlock` accepts the transaction and `updateUserBalance`
looks the recipient up in vain, which is undefined behaviour and not a return. -/
theorem addTransactionToNewBlock_missing_recipient :
    (∀ t ∈ [txAB30], (findUserByPk [userA] t.sender).isSome) ∧
    addTransactionToNewBlock (fun _ => 0)
      { us := [userA], poo := [txAB30], invalid := [], candidates := [], drawn := 0 } =
      .undefinedBehaviour := by
  decide

/-- C18, amended: for every private pool, every private ledger that contains the sender
and the recipient of every pool transaction, and every outcome of the draws,
`addTransactionToNewBlock` returns, with a pool that is no larger and, when the pool was
not empty on entry, strictly smaller; hence the selection loop of `mineBlock` returns,
having made as many draws as it removed transactions from the private pool, at most as
many as the pool snapshot holds. -/
theorem addTransactionToNewBlock_terminates (draws : Nat → Nat) (st : Selection)
    (hc : st.Closed) :
    (∃ st1, addTransactionToNewBlock draws st = .ok st1 ∧
      st1.poo.length ≤ st.poo.length ∧ (st.poo ≠ [] → st1.poo.length < st.poo.length)) ∧
    ∀ cap, ∃ sel, selectTransactions cap draws st.us st.poo = .ok sel ∧
      sel.drawn + sel.poo.length = st.poo.length ∧ sel.drawn ≤ st.poo.length := by
  constructor
  · obtain ⟨st1, ha, _⟩ :=
      addTransactionToNewBlockLoop_returns draws (st.poo.length + 1) st (by omega) hc
    have hs := addTransactionToNewBlockLoop_shrinks draws (st.poo.length + 1) st (by omega)
    exact ⟨st1, ha, hs.2 st1 ha⟩
  · intro cap
    obtain ⟨sel, hs⟩ := selectionLoop_returns cap draws st.poo.length
      { us := st.us, poo := st.poo, invalid := [], candidates := [], drawn := 0 }
      (le_refl _) hc
    have hd := selectionLoop_draws cap draws st.poo.length _ _ _ hs (by simp)
    exact ⟨sel, hs, hd, by omega⟩

theorem addTransactionToNewBlock_terminates_witness :
    ∃ st1, addTransactionToNewBlock (fun _ => 0)
        { us := [userA, userB], poo := [txBA5, txAB30], invalid := [], candidates := [],
          drawn := 0 } = .ok st1 ∧
      st1.poo.length ≤ [txBA5, txAB30].length ∧
      ([txBA5, txAB30] ≠ [] → st1.poo.length < [txBA5, txAB30].length) :=
  (addTransactionToNewBlock_terminates (fun _ => 0)
    { us := [userA, userB], poo := [txBA5, txAB30], invalid := [], candidates := [],
      drawn := 0 }
    (by unfold Selection.Closed; decide)).1

end BgtBlockchain
